import Mathlib

/-!
# Maze generator and solver: a shallow embedding

This file embeds the algorithmic core of a JavaScript maze program
(grid model, passage state, three maze generators — randomized Prim's,
randomized Kruskal's, recursive backtracking — and the BFS layering phase
of its solver) into Lean, and proves and refutes properties of the
embedded code.

Modelling conventions:
* a cell is a pair of natural numbers `(row, column)`, mirroring the
  two-element arrays `[i, j]` of the source.  All cells handled by the
  program have non-negative coordinates, so `ℕ` coordinates are faithful;
  arithmetic guards such as `row - 1 >= 0` (over JavaScript numbers) are
  rendered as `1 ≤ row`, and `cell1[1] - 1 == cell2[1]` as
  `cell1.2 = cell2.2 + 1`, which agree with the JavaScript comparisons on
  non-negative integers.
* the DOM border colours that store the passage state are modelled as a
  list of `(cell, border)` pairs: a pair is in the list exactly when that
  border has been set to `"transparent"`.  The list only ever grows,
  matching the source, which never un-sets a transparent border during
  generation.
* `Math.floor(Math.random() * len)` produces an arbitrary element of
  `[0, len)`; randomness is injected as a stream `rng : ℕ → ℕ` of draws
  and each use takes `rng t % len`, which reaches exactly the same index
  set.  For `len = 0`, `% 0` leaves the draw unchanged and the subsequent
  list lookup returns `none`, matching the `undefined` JavaScript produces
  when indexing past the end of an empty array.
* JavaScript array reads/writes through possibly-negative indices are
  modelled by `jsGet`/`jsSet` over `ℤ` indices (out-of-range reads give
  the falsy `undefined`, rendered as `false`).
* loops are run on explicit fuel; fuel exhaustion returns the current
  state, while `none` marks a genuine JavaScript crash (indexing
  `undefined`), so crash-freedom is `≠ none`.
-/

/-- A maze cell `(row, column)`, as the two-element arrays of the source. -/
abbrev Cell := ℕ × ℕ

/-- The four borders of a grid cell (its four CSS border colours). -/
inductive Border
  | top
  | right
  | bottom
  | left
deriving DecidableEq, Repr

/-- The passage state: the set (as a list) of borders that have been set to
`"transparent"`.  Initially empty — all walls closed. -/
abbrev BorderState := List (Cell × Border)

/-- Whether a cell's border is currently `"transparent"`. -/
def transparent (s : BorderState) (c : Cell) (b : Border) : Bool :=
  decide ((c, b) ∈ s)

/-- `Neighbors(row, column)` — in-bounds neighbours in the source's fixed
push order: North, East, South, West. -/
def Neighbors (side row column : ℕ) : List Cell :=
  (if 1 ≤ row then [(row - 1, column)] else []) ++
  (if column + 1 < side then [(row, column + 1)] else []) ++
  (if row + 1 < side then [(row + 1, column)] else []) ++
  (if 1 ≤ column then [(row, column - 1)] else [])

/-- The `cells` array built by `GenerateGrid`: row-major list of all cells. -/
def buildCells (side : ℕ) : List Cell :=
  (List.range side).flatMap fun i => (List.range side).map fun j => (i, j)

/-- `FindCellIndex(cell, array)` — linear scan, `-1` when absent.
(`ArraysEqual` on two-element arrays is equality of the pairs.) -/
def FindCellIndex (cell : Cell) : List Cell → ℤ
  | [] => -1
  | a :: rest =>
    if a = cell then 0
    else if FindCellIndex cell rest = -1 then -1 else FindCellIndex cell rest + 1

/-- The index of a cell in the `cells` array, as the program computes it
everywhere: `FindCellIndex(c, cells)`. -/
def cellIdx (side : ℕ) (c : Cell) : ℤ :=
  FindCellIndex c (buildCells side)

/-- Read `a[i]` for an integer index: out-of-range gives `undefined`,
which is falsy, hence `false`. -/
def jsGet (v : List Bool) (i : ℤ) : Bool :=
  if 0 ≤ i then v.getD i.toNat false else false

/-- Write `a[i] = b`.  All writes performed by the program are in range;
out-of-range writes are modelled as no-ops. -/
def jsSet (v : List Bool) (i : ℤ) (b : Bool) : List Bool :=
  if 0 ≤ i then v.set i.toNat b else v

/-- `CutEdge(cell1, cell2)`: opens the borders between the two cells.
The source compares `cell1[1] - 1 == cell2[1]` (WEST), `cell1[1] + 1 ==
cell2[1]` (EAST), `cell1[0] - 1 == cell2[0]` (NORTH), `cell1[0] + 1 ==
cell2[0]` (SOUTH), in this order, and silently does nothing when no
branch matches. -/
def CutEdge (cell1 cell2 : Cell) (s : BorderState) : BorderState :=
  if cell1.2 = cell2.2 + 1 then
    (cell1, Border.left) :: (cell2, Border.right) :: s
  else if cell1.2 + 1 = cell2.2 then
    (cell1, Border.right) :: (cell2, Border.left) :: s
  else if cell1.1 = cell2.1 + 1 then
    (cell1, Border.top) :: (cell2, Border.bottom) :: s
  else if cell1.1 + 1 = cell2.1 then
    (cell1, Border.bottom) :: (cell2, Border.top) :: s
  else s

/-- `ConnectedNeighbors(row, column)`: the in-bounds neighbours reachable
through a transparent border of the cell itself, in N, E, S, W order. -/
def ConnectedNeighbors (side : ℕ) (s : BorderState) (row column : ℕ) : List Cell :=
  (if 1 ≤ row ∧ transparent s (row, column) Border.top = true then
    [(row - 1, column)] else []) ++
  (if column + 1 < side ∧ transparent s (row, column) Border.right = true then
    [(row, column + 1)] else []) ++
  (if row + 1 < side ∧ transparent s (row, column) Border.bottom = true then
    [(row + 1, column)] else []) ++
  (if 1 ≤ column ∧ transparent s (row, column) Border.left = true then
    [(row, column - 1)] else [])

/-- `GetAllEdges()`: all adjacent cell pairs, canonical orientation
(cell, then its south or east neighbour). -/
def GetAllEdges (side : ℕ) : List (Cell × Cell) :=
  (List.range side).flatMap fun x => (List.range side).flatMap fun y =>
    (if x + 1 < side then [((x, y), (x + 1, y))] else []) ++
    (if y + 1 < side then [((x, y), (x, y + 1))] else [])

/-- `CreateEntranceAndExit()`: turns the entrance's bottom border and the
exit's top border transparent (outward-facing, towards the outside). -/
def CreateEntranceAndExit (side : ℕ) (s : BorderState) : BorderState :=
  (((side - 1, side - 1) : Cell), Border.bottom) :: (((0, 0) : Cell), Border.top) :: s

/-- An injected stream of random draws (`Math.random` outcomes). -/
abbrev Rng := ℕ → ℕ

/-! ## Randomized Prim's algorithm -/

/-- The mutable state of a Prim's run: the `visited` boolean array, the
`frontier` list, the passage state, and the position in the draw stream. -/
structure PrimState where
  visited : List Bool
  frontier : List Cell
  borders : BorderState
  t : ℕ
deriving DecidableEq, Repr

/-- `GenerateMaze` preamble plus the pre-loop part of `PrimsAlgorithm`:
random start cell marked visited, its neighbours pushed to the frontier. -/
def primInit (side : ℕ) (rng : Rng) : PrimState :=
  let startRow := rng 0 % side
  let startColumn := rng 1 % side
  let cells := buildCells side
  { visited := jsSet (List.replicate (side * side) false)
      (FindCellIndex (startRow, startColumn) cells) true
    frontier := Neighbors side startRow startColumn
    borders := []
    t := 2 }

/-- One iteration of the `while (frontier.length > 0)` loop of
`PrimsAlgorithm`.  `none` models the crash JavaScript hits when
`randCellVisitedNeighbors` is empty and `CutEdge` dereferences
`undefined`. -/
def primStep (side : ℕ) (rng : Rng) (s : PrimState) : Option PrimState :=
  let cells := buildCells side
  match s.frontier.get? (rng s.t % s.frontier.length) with
  | none => none
  | some randomCell =>
    let frontier1 := s.frontier.eraseIdx (FindCellIndex randomCell s.frontier).toNat
    let randCellNeighbors := Neighbors side randomCell.1 randomCell.2
    let randCellVisitedNeighbors := randCellNeighbors.filter fun nb =>
      jsGet s.visited (FindCellIndex nb cells)
    match randCellVisitedNeighbors.get?
        (rng (s.t + 1) % randCellVisitedNeighbors.length) with
    | none => none
    | some randomVisitedNeighbor =>
      let borders1 := CutEdge randomCell randomVisitedNeighbor s.borders
      let visited1 := jsSet s.visited (FindCellIndex randomCell cells) true
      let frontier2 := randCellNeighbors.foldl
        (fun fr nb =>
          if jsGet visited1 (FindCellIndex nb cells) = false ∧
              FindCellIndex nb fr < 0 then
            fr ++ [nb]
          else fr)
        frontier1
      some { visited := visited1, frontier := frontier2, borders := borders1,
             t := s.t + 2 }

/-- The Prim's loop, on fuel.  Fuel exhaustion returns the current state;
`none` is a crash inside a step. -/
def primLoop (side : ℕ) (rng : Rng) : ℕ → PrimState → Option PrimState
  | 0, s => some s
  | fuel + 1, s =>
    match s.frontier with
    | [] => some s
    | _ :: _ =>
      match primStep side rng s with
      | none => none
      | some s1 => primLoop side rng fuel s1

/-- A full Prim's run from a freshly initialized grid.  `side * side` fuel
is enough: each iteration visits one new cell. -/
def PrimsAlgorithm (side : ℕ) (rng : Rng) : Option PrimState :=
  primLoop side rng (side * side) (primInit side rng)

/-! ## Recursive backtracker -/

/-- The state of a `RecursiveBacktrack` run: `visited`, the explicit path
stack (top = head), the passage state, and the draw position. -/
structure RBState where
  visited : List Bool
  path : List Cell
  borders : BorderState
  t : ℕ
deriving DecidableEq, Repr

/-- `GenerateMaze` preamble for the backtracker: random start cell marked
visited and pushed on the path. -/
def rbInit (side : ℕ) (rng : Rng) : RBState :=
  let startRow := rng 0 % side
  let startColumn := rng 1 % side
  let cells := buildCells side
  { visited := jsSet (List.replicate (side * side) false)
      (FindCellIndex (startRow, startColumn) cells) true
    path := [(startRow, startColumn)]
    borders := []
    t := 2 }

/-- One invocation of `RecursiveBacktrack` on a non-empty path: carve to a
random unvisited neighbour of the top cell and push it, or pop.  (`get?`
returns `some` exactly when `unvisitedNeighbors` is non-empty, so the two
match arms are the source's two branches; no draw is consumed on pop,
matching the source.) -/
def rbStep (side : ℕ) (rng : Rng) (s : RBState) : RBState :=
  match s.path with
  | [] => s
  | current :: rest =>
    let cells := buildCells side
    let unvisitedNeighbors := (Neighbors side current.1 current.2).filter fun nb =>
      jsGet s.visited (FindCellIndex nb cells) = false
    match unvisitedNeighbors.get? (rng s.t % unvisitedNeighbors.length) with
    | some randomNeighbor =>
      { visited := jsSet s.visited (FindCellIndex randomNeighbor cells) true
        path := randomNeighbor :: current :: rest
        borders := CutEdge randomNeighbor current s.borders
        t := s.t + 1 }
    | none => { s with path := rest }

/-- The backtracker's recursion, on fuel; it stops when the path empties. -/
def rbLoop (side : ℕ) (rng : Rng) : ℕ → RBState → RBState
  | 0, s => s
  | fuel + 1, s =>
    match s.path with
    | [] => s
    | _ :: _ => rbLoop side rng fuel (rbStep side rng s)

/-- A full backtracker run from a freshly initialized grid; `2 * side *
side` invocations always suffice. -/
def RecursiveBacktrack (side : ℕ) (rng : Rng) : RBState :=
  rbLoop side rng (2 * (side * side)) (rbInit side rng)

/-! ## Randomized Kruskal's algorithm -/

/-- The `cellMap` of `Kruskals`: each cell paired with its set id,
built by `for i: cellMap.push({x: cells[i][0], y: cells[i][1], set: i})`. -/
def mkCellMap : List Cell → ℕ → List (Cell × ℕ)
  | [], _ => []
  | c :: rest, i => (c, i) :: mkCellMap rest (i + 1)

/-- The state of a Kruskal's run: the remaining edge pool, the `cellMap`,
the passage state, and the draw position.  (The `visited` array is marked
for the start cell by `GenerateMaze` but never read by `Kruskals`, so it
is not carried.) -/
structure KrState where
  edges : List (Cell × Cell)
  cellMap : List (Cell × ℕ)
  borders : BorderState
  t : ℕ
deriving DecidableEq, Repr

/-- Initial Kruskal's state.  `t = 2`: `GenerateMaze` consumes two draws
for the (here unused) start cell before dispatching. -/
def krInit (side : ℕ) : KrState :=
  { edges := GetAllEdges side
    cellMap := mkCellMap (buildCells side) 0
    borders := []
    t := 2 }

/-- One body of the `do … while (edges.length > 0)` loop of `Kruskals`.
`none` models the crash on an empty pool (`edges[...]` is `undefined`)
or on an edge endpoint absent from `cellMap` (`cell1.set` throws); both
are unreachable from `krInit` for the supported sizes.  The source
removes the picked edge with `edges.splice(edges.indexOf(edge), 1)`
(reference equality); the pool never holds duplicates, so removing the
first value-equal occurrence (`List.erase`) is the same operation. -/
def krStep (_side : ℕ) (rng : Rng) (s : KrState) : Option KrState :=
  match s.edges.get? (rng s.t % s.edges.length) with
  | none => none
  | some edge =>
    let edges1 := s.edges.erase edge
    match s.cellMap.find? (fun c => c.1 = edge.1),
        s.cellMap.find? (fun c => c.1 = edge.2) with
    | some cell1, some cell2 =>
      if cell1.2 ≠ cell2.2 then
        let oldSet := cell2.2
        let cellMap1 := s.cellMap.map fun c =>
          if c.2 = oldSet then (c.1, cell1.2) else c
        some { edges := edges1, cellMap := cellMap1,
               borders := CutEdge cell1.1 cell2.1 s.borders, t := s.t + 1 }
      else
        some { s with edges := edges1, t := s.t + 1 }
    | _, _ => none

/-- The `do … while` loop of `Kruskals`, on fuel: the body runs first,
then the pool is tested. -/
def krLoop (side : ℕ) (rng : Rng) : ℕ → KrState → Option KrState
  | 0, s => some s
  | fuel + 1, s =>
    match krStep side rng s with
    | none => none
    | some s1 => if 0 < s1.edges.length then krLoop side rng fuel s1 else some s1

/-- A full Kruskal's run; the pool shrinks by one per body, so its initial
size `2 * side * (side - 1)` is exactly enough fuel. -/
def Kruskals (side : ℕ) (rng : Rng) : Option KrState :=
  krLoop side rng (2 * side * (side - 1)) (krInit side)

/-! ## Solver, phase 1: BFS layering (`Dijkstras`) -/

/-- `Map.set` on the depth map: a fresh binding shadows any older one for
the same key (only `get` is ever observed, so consing is faithful). -/
def mapSet (m : List (ℤ × ℕ)) (k : ℤ) (v : ℕ) : List (ℤ × ℕ) :=
  (k, v) :: m

/-- `Map.get` on the depth map. -/
def mapGet (m : List (ℤ × ℕ)) (k : ℤ) : Option ℕ :=
  (m.find? fun p => p.1 = k).map (·.2)

/-- The state of the BFS layering phase of `Dijkstras`, instrumented: the
FIFO queue of `[row, column, depth]` triples, the depth map keyed by cell
index, the `visited` array, a flag recording whether a depth entry was
ever overwritten, and the trace of depth writes
`(index, value, parent depth)`. -/
structure DijkState where
  queue : List (Cell × ℕ)
  depthMap : List (ℤ × ℕ)
  visited : List Bool
  overwrote : Bool
  writes : List (ℤ × ℕ × ℕ)
deriving DecidableEq, Repr

/-- The initial BFS state of `Dijkstras`: queue `[[0, 0, 0]]`, depth map
`new Map([[0, 0]])`, `visited` reset to all-false. -/
def dijkInit (side : ℕ) : DijkState :=
  { queue := [(((0, 0) : Cell), 0)]
    depthMap := [((0 : ℤ), 0)]
    visited := List.replicate (side * side) false
    overwrote := false
    writes := [] }

/-- Result of one BFS dequeue: the loop either finished (queue empty, or
the bottom-right cell was dequeued and `break` ran) or continues. -/
inductive DijkRes
  | done (s : DijkState)
  | next (s : DijkState)
deriving DecidableEq, Repr

/-- One iteration of the BFS `while (queue.length > 0)` loop: dequeue the
head, mark it visited, stop if it is the bottom-right cell, otherwise
push each not-yet-visited connected neighbour with depth + 1. -/
def dijkStep (side : ℕ) (bs : BorderState) (s : DijkState) : DijkRes :=
  match s.queue with
  | [] => DijkRes.done s
  | cell :: rest =>
    let cells := buildCells side
    let idx := FindCellIndex cell.1 cells
    let depth := (mapGet s.depthMap idx).getD 0
    let visited1 := jsSet s.visited idx true
    if cell.1.1 = side - 1 ∧ cell.1.2 = side - 1 then
      DijkRes.done { s with queue := rest, visited := visited1 }
    else
      DijkRes.next <|
        (ConnectedNeighbors side bs cell.1.1 cell.1.2).foldl
          (fun st nb =>
            let nIdx := FindCellIndex nb cells
            if jsGet st.visited nIdx = false then
              { st with
                queue := st.queue ++ [(nb, depth + 1)]
                depthMap := mapSet st.depthMap nIdx (depth + 1)
                overwrote := st.overwrote || (mapGet st.depthMap nIdx).isSome
                writes := st.writes ++ [(nIdx, depth + 1, depth)] }
            else st)
          { s with queue := rest, visited := visited1 }

/-- The BFS layering loop on fuel. -/
def dijkLoop (side : ℕ) (bs : BorderState) : ℕ → DijkState → DijkState
  | 0, s => s
  | fuel + 1, s =>
    match dijkStep side bs s with
    | DijkRes.done s1 => s1
    | DijkRes.next s1 => dijkLoop side bs fuel s1

/-- Phase 1 of `Dijkstras` run to completion (on a tree-shaped maze each
cell is dequeued at most once, so `side * side + 1` fuel suffices). -/
def DijkstrasPhase1 (side : ℕ) (bs : BorderState) : DijkState :=
  dijkLoop side bs (side * side + 1) (dijkInit side)

/-! ## Derived notions used by the specification's properties -/

/-- A cell is on the `side × side` grid. -/
def inB (side : ℕ) (c : Cell) : Prop :=
  c.1 < side ∧ c.2 < side

instance (side : ℕ) (c : Cell) : Decidable (inB side c) := by
  unfold inB; infer_instance

/-- Grid adjacency: exactly one coordinate differs by exactly 1. -/
def gridAdjacent (a b : Cell) : Prop :=
  (a.1 = b.1 ∧ (a.2 + 1 = b.2 ∨ b.2 + 1 = a.2)) ∨
  (a.2 = b.2 ∧ (a.1 + 1 = b.1 ∨ b.1 + 1 = a.1))

instance (a b : Cell) : Decidable (gridAdjacent a b) := by
  unfold gridAdjacent; infer_instance

/-- The canonical orientation of an adjacent pair (matching the
orientation used by `GetAllEdges`). -/
def canonEdge (a b : Cell) : Cell × Cell :=
  if a.1 + 1 = b.1 ∨ a.2 + 1 = b.2 then (a, b) else (b, a)

/-- An adjacent pair counts as an open passage when either endpoint lists
the other among its connected neighbours. -/
def edgeOpen (side : ℕ) (s : BorderState) (e : Cell × Cell) : Bool :=
  decide (e.2 ∈ ConnectedNeighbors side s e.1.1 e.1.2) ||
  decide (e.1 ∈ ConnectedNeighbors side s e.2.1 e.2.2)

/-- The set of open passages of a passage state, one canonical pair per
adjacent cell pair. -/
def openEdges (side : ℕ) (s : BorderState) : Finset (Cell × Cell) :=
  (GetAllEdges side).toFinset.filter fun e => edgeOpen side s e = true

/-- One hop along an open passage, in either direction. -/
def openAdj (side : ℕ) (s : BorderState) (a b : Cell) : Prop :=
  b ∈ ConnectedNeighbors side s a.1 a.2 ∨ a ∈ ConnectedNeighbors side s b.1 b.2

/-- Reachability through open passages. -/
def Reach (side : ℕ) (s : BorderState) : Cell → Cell → Prop :=
  Relation.ReflTransGen (openAdj side s)

/-- The cells of the grid, as a finite set. -/
def gridFinset (side : ℕ) : Finset Cell :=
  (buildCells side).toFinset

/-- The number of visited grid cells of a `visited` array. -/
def visCard (side : ℕ) (v : List Bool) : ℕ :=
  ((gridFinset side).filter fun c => jsGet v (cellIdx side c) = true).card

/-- The passage graph of `bs` is a forest: every non-empty set of cells
spans strictly fewer open passages than it has cells.  (A finite graph
satisfies this bound for all vertex subsets exactly when it is acyclic.) -/
def isForest (side : ℕ) (bs : BorderState) : Prop :=
  ∀ S : Finset Cell, S.Nonempty →
    ((openEdges side bs).filter fun e => e.1 ∈ S ∧ e.2 ∈ S).card + 1 ≤ S.card

/-- A passage-state mutation performed by the program: a `CutEdge` call,
or `CreateEntranceAndExit`. -/
inductive MazeOp
  | cut (c1 c2 : Cell)
  | entranceExit
deriving DecidableEq, Repr

/-- Run one mutation on the passage state. -/
def applyOp (side : ℕ) (s : BorderState) : MazeOp → BorderState
  | MazeOp.cut c1 c2 => CutEdge c1 c2 s
  | MazeOp.entranceExit => CreateEntranceAndExit side s

/-- Run a sequence of mutations from the all-closed initial state. -/
def applyOps (side : ℕ) (ops : List MazeOp) : BorderState :=
  ops.foldl (applyOp side) []

/-- A generation-time mutation is well-formed when every `CutEdge` call is
on a grid-adjacent pair of in-bounds cells (as all generator calls are). -/
def opWF (side : ℕ) : MazeOp → Prop
  | MazeOp.cut c1 c2 => gridAdjacent c1 c2 ∧ inB side c1 ∧ inB side c2
  | MazeOp.entranceExit => True

/-- The loop invariant of the embedded Prim's algorithm.  `visited` has
grid size; frontier cells are in-bounds, unvisited, pairwise distinct,
and each has a visited neighbour; every unvisited cell with a visited
neighbour is on the frontier; visited cells are mutually reachable
through the carved passages; open passages join visited cells and number
exactly one less than the visited cells. -/
structure PrimInv (side : ℕ) (s : PrimState) : Prop where
  vlen : s.visited.length = side * side
  fInB : ∀ c ∈ s.frontier, inB side c
  fUnvis : ∀ c ∈ s.frontier, jsGet s.visited (cellIdx side c) = false
  fNodup : s.frontier.Nodup
  fAdjVis : ∀ c ∈ s.frontier, ∃ nb ∈ Neighbors side c.1 c.2,
    jsGet s.visited (cellIdx side nb) = true
  fComplete : ∀ u : Cell, inB side u → jsGet s.visited (cellIdx side u) = false →
    (∃ v ∈ Neighbors side u.1 u.2, jsGet s.visited (cellIdx side v) = true) →
    u ∈ s.frontier
  vConn : ∀ c c2 : Cell, inB side c → inB side c2 →
    jsGet s.visited (cellIdx side c) = true →
    jsGet s.visited (cellIdx side c2) = true →
    Reach side s.borders c c2
  eSub : ∀ e ∈ openEdges side s.borders,
    jsGet s.visited (cellIdx side e.1) = true ∧
    jsGet s.visited (cellIdx side e.2) = true
  eCard : (openEdges side s.borders).card + 1 = visCard side s.visited

/-- The invariant of the embedded recursive backtracker.  Path cells are
in-bounds, visited, and pairwise distinct; every visited cell that is no
longer on the path has all its neighbours visited; visited cells are
mutually reachable through the carved passages; open passages join
visited cells and number exactly one less than the visited cells. -/
structure RBInv (side : ℕ) (s : RBState) : Prop where
  vlen : s.visited.length = side * side
  pInB : ∀ c ∈ s.path, inB side c
  pVis : ∀ c ∈ s.path, jsGet s.visited (cellIdx side c) = true
  pNodup : s.path.Nodup
  finished : ∀ c : Cell, inB side c → jsGet s.visited (cellIdx side c) = true →
    c ∉ s.path → ∀ nb ∈ Neighbors side c.1 c.2,
      jsGet s.visited (cellIdx side nb) = true
  vConn : ∀ c c2 : Cell, inB side c → inB side c2 →
    jsGet s.visited (cellIdx side c) = true →
    jsGet s.visited (cellIdx side c2) = true →
    Reach side s.borders c c2
  eSub : ∀ e ∈ openEdges side s.borders,
    jsGet s.visited (cellIdx side e.1) = true ∧
    jsGet s.visited (cellIdx side e.2) = true
  eCard : (openEdges side s.borders).card + 1 = visCard side s.visited

/-- The set id currently recorded in the `cellMap` for a cell (the value
the source reads as `cell1.set` after its linear search). -/
def krLab (m : List (Cell × ℕ)) (c : Cell) : Option ℕ :=
  (m.find? fun p => p.1 = c).map Prod.snd

/-- The number of distinct set ids present in the `cellMap`. -/
def labelCount (m : List (Cell × ℕ)) : ℕ :=
  (m.map Prod.snd).toFinset.card

/-- The loop invariant of the embedded Kruskal's algorithm.  The `cellMap`
keys are exactly the grid cells; cells with equal set ids are reachable
from one another through the carved passages; open passages join
equal-id cells; open passages plus distinct set ids add up to the cell
count; the pool is a subset of the full edge list; and every grid edge is
still in the pool or joins equal-id cells. -/
structure KrInv (side : ℕ) (s : KrState) : Prop where
  cmKeys : s.cellMap.map Prod.fst = buildCells side
  labReach : ∀ c c2 : Cell, inB side c → inB side c2 →
    krLab s.cellMap c = krLab s.cellMap c2 → Reach side s.borders c c2
  openLab : ∀ e ∈ openEdges side s.borders,
    krLab s.cellMap e.1 = krLab s.cellMap e.2
  eCard : (openEdges side s.borders).card + labelCount s.cellMap = side * side
  poolSub : s.edges ⊆ GetAllEdges side
  poolComplete : ∀ e ∈ GetAllEdges side,
    e ∈ s.edges ∨ krLab s.cellMap e.1 = krLab s.cellMap e.2

/-- The cells whose index is currently a key of the BFS depth map. -/
def discSet (side : ℕ) (dm : List (ℤ × ℕ)) : Finset Cell :=
  (gridFinset side).filter fun c => (mapGet dm (cellIdx side c)).isSome = true

/-- The loop invariant of the BFS layering phase of `Dijkstras` over a
forest-shaped passage state: the `visited` array has grid size; queued
cells are in bounds, unvisited, and pairwise distinct; the depth-map keys
are exactly the visited and queued cells; no depth entry has been
overwritten; every recorded write stores the parent depth plus one; and
the discovery edges form a tree on the discovered cells (one fewer edge
than cells, each edge an open passage with both endpoints discovered and
at least one endpoint visited). -/
structure DijkInv (side : ℕ) (bs : BorderState) (s : DijkState) : Prop where
  vlen : s.visited.length = side * side
  qInB : ∀ cp ∈ s.queue, inB side cp.1
  qUnvis : ∀ cp ∈ s.queue, jsGet s.visited (cellIdx side cp.1) = false
  qNodup : (s.queue.map Prod.fst).Nodup
  dmDisc : ∀ c : Cell, inB side c →
    ((mapGet s.depthMap (cellIdx side c)).isSome = true ↔
      jsGet s.visited (cellIdx side c) = true ∨ c ∈ s.queue.map Prod.fst)
  ovf : s.overwrote = false
  wOK : ∀ w ∈ s.writes, w.2.1 = w.2.2 + 1
  tree : ∃ T : Finset (Cell × Cell),
    T ⊆ openEdges side bs ∧
    (∀ e ∈ T, (mapGet s.depthMap (cellIdx side e.1)).isSome = true ∧
      (mapGet s.depthMap (cellIdx side e.2)).isSome = true) ∧
    (∀ e ∈ T, jsGet s.visited (cellIdx side e.1) = true ∨
      jsGet s.visited (cellIdx side e.2) = true) ∧
    T.card + 1 = (discSet side s.depthMap).card

/-- The invariant carried through the neighbour fold of one BFS dequeue:
`u` is the freshly visited parent, `l` the still unprocessed neighbours.
Beyond the fields of `DijkInv`, edges of the discovery tree joining `u`
to a still unvisited cell lead only to already processed neighbours. -/
structure DFoldInv (side : ℕ) (bs : BorderState) (u : Cell) (l : List Cell)
    (st : DijkState) (T : Finset (Cell × Cell)) : Prop where
  lNodup : l.Nodup
  lCN : ∀ nb ∈ l, nb ∈ ConnectedNeighbors side bs u.1 u.2
  uInB : inB side u
  uVis : jsGet st.visited (cellIdx side u) = true
  vlen : st.visited.length = side * side
  qInB : ∀ cp ∈ st.queue, inB side cp.1
  qUnvis : ∀ cp ∈ st.queue, jsGet st.visited (cellIdx side cp.1) = false
  qNodup : (st.queue.map Prod.fst).Nodup
  dmDisc : ∀ c : Cell, inB side c →
    ((mapGet st.depthMap (cellIdx side c)).isSome = true ↔
      jsGet st.visited (cellIdx side c) = true ∨ c ∈ st.queue.map Prod.fst)
  ovf : st.overwrote = false
  wOK : ∀ w ∈ st.writes, w.2.1 = w.2.2 + 1
  tSub : T ⊆ openEdges side bs
  tDisc : ∀ e ∈ T, (mapGet st.depthMap (cellIdx side e.1)).isSome = true ∧
    (mapGet st.depthMap (cellIdx side e.2)).isSome = true
  tVis : ∀ e ∈ T, jsGet st.visited (cellIdx side e.1) = true ∨
    jsGet st.visited (cellIdx side e.2) = true
  tFresh : ∀ e ∈ T, ∀ x : Cell, ((e.1 = u ∧ e.2 = x) ∨ (e.2 = u ∧ e.1 = x)) →
    jsGet st.visited (cellIdx side x) = false → x ∉ l
  tCard : T.card + 1 = (discSet side st.depthMap).card

/-- Passage symmetry, as observed through `ConnectedNeighbors`: each of two
in-bounds cells lists the other, or neither does. -/
def SymState (side : ℕ) (s : BorderState) : Prop :=
  ∀ A B : Cell, inB side A → inB side B →
    (B ∈ ConnectedNeighbors side s A.1 A.2 ↔ A ∈ ConnectedNeighbors side s B.1 B.2)

instance (side : ℕ) (op : MazeOp) : Decidable (opWF side op) := by
  cases op <;> unfold opWF <;> infer_instance

/-! ## Basic lemmas: `FindCellIndex` -/

theorem FindCellIndex_ge (cell : Cell) (l : List Cell) :
    -1 ≤ FindCellIndex cell l := by
  induction l with
  | nil => simp [FindCellIndex]
  | cons a rest ih =>
    simp only [FindCellIndex]
    split
    · norm_num
    · split
      · norm_num
      · omega

theorem FindCellIndex_eq_neg_one (cell : Cell) (l : List Cell) :
    FindCellIndex cell l = -1 ↔ cell ∉ l := by
  induction l with
  | nil => simp [FindCellIndex]
  | cons a rest ih =>
    simp only [FindCellIndex, List.mem_cons]
    by_cases h : a = cell
    · subst h
      simp
    · have hge := FindCellIndex_ge cell rest
      rw [if_neg h]
      by_cases h2 : FindCellIndex cell rest = -1
      · rw [if_pos h2]
        simp only [eq_self_iff_true, true_iff]
        push_neg
        exact ⟨fun hc => h hc.symm, ih.mp h2⟩
      · rw [if_neg h2]
        constructor
        · intro hc; omega
        · intro hc
          exact absurd (ih.mpr fun hm => hc (Or.inr hm)) h2

theorem FindCellIndex_neg_iff (cell : Cell) (l : List Cell) :
    FindCellIndex cell l < 0 ↔ cell ∉ l := by
  have hge := FindCellIndex_ge cell l
  rw [← FindCellIndex_eq_neg_one]
  omega

theorem FindCellIndex_nonneg (cell : Cell) (l : List Cell) (h : cell ∈ l) :
    0 ≤ FindCellIndex cell l := by
  have hge := FindCellIndex_ge cell l
  have hne : FindCellIndex cell l ≠ -1 :=
    fun hc => (FindCellIndex_eq_neg_one cell l).mp hc h
  omega

theorem FindCellIndex_cons_of_ne (cell a : Cell) (rest : List Cell)
    (ha : a ≠ cell) (h : cell ∈ rest) :
    FindCellIndex cell (a :: rest) = FindCellIndex cell rest + 1 := by
  have hne : FindCellIndex cell rest ≠ -1 :=
    fun hc => (FindCellIndex_eq_neg_one cell rest).mp hc h
  simp [FindCellIndex, if_neg ha, if_neg hne]

theorem eraseIdx_FindCellIndex (cell : Cell) (l : List Cell) (h : cell ∈ l) :
    l.eraseIdx (FindCellIndex cell l).toNat = l.erase cell := by
  induction l with
  | nil => cases h
  | cons a rest ih =>
    by_cases ha : a = cell
    · subst ha
      simp [FindCellIndex, List.erase_cons_head]
    · have hmem : cell ∈ rest := by
        rcases List.mem_cons.mp h with h1 | h1
        · exact absurd h1.symm ha
        · exact h1
      have hge := FindCellIndex_nonneg cell rest hmem
      rw [FindCellIndex_cons_of_ne cell a rest ha hmem,
        show (FindCellIndex cell rest + 1).toNat = (FindCellIndex cell rest).toNat + 1
          from by omega,
        List.eraseIdx_cons_succ, ih hmem, List.erase_cons_tail (by simpa using ha)]

theorem FindCellIndex_append_left (cell : Cell) (l1 l2 : List Cell)
    (h : cell ∈ l1) :
    FindCellIndex cell (l1 ++ l2) = FindCellIndex cell l1 := by
  induction l1 with
  | nil => cases h
  | cons a rest ih =>
    by_cases ha : a = cell
    · subst ha
      simp [FindCellIndex]
    · have hmem : cell ∈ rest := by
        rcases List.mem_cons.mp h with h1 | h1
        · exact absurd h1.symm ha
        · exact h1
      rw [List.cons_append, FindCellIndex_cons_of_ne cell a _ ha (by simp [hmem]),
        FindCellIndex_cons_of_ne cell a rest ha hmem, ih hmem]

theorem FindCellIndex_append_right (cell : Cell) (l1 l2 : List Cell)
    (h1 : cell ∉ l1) (h2 : cell ∈ l2) :
    FindCellIndex cell (l1 ++ l2) = (l1.length : ℤ) + FindCellIndex cell l2 := by
  induction l1 with
  | nil => simp
  | cons a rest ih =>
    have ha : a ≠ cell := fun hc => h1 (by simp [hc])
    have h1r : cell ∉ rest := fun hc => h1 (by simp [hc])
    rw [List.cons_append, FindCellIndex_cons_of_ne cell a _ ha (by simp [h2]),
      ih h1r, List.length_cons]
    push_cast
    ring

/-! ## Basic lemmas: `jsGet` / `jsSet` -/

theorem jsGet_neg (v : List Bool) (i : ℤ) (h : i < 0) : jsGet v i = false := by
  simp [jsGet, not_le.mpr h]

theorem jsGet_natCast (v : List Bool) (n : ℕ) :
    jsGet v (n : ℤ) = v.getD n false := by
  simp [jsGet]

theorem jsGet_replicate (n : ℕ) (i : ℤ) :
    jsGet (List.replicate n false) i = false := by
  unfold jsGet
  split
  · rw [List.getD_eq_getElem?_getD]
    rcases lt_or_le (Int.toNat i) n with h | h
    · simp [List.getElem?_replicate, h]
    · rw [List.getElem?_eq_none (by simpa using h)]
      rfl
  · rfl

theorem jsSet_length (v : List Bool) (i : ℤ) (b : Bool) :
    (jsSet v i b).length = v.length := by
  unfold jsSet
  split <;> simp

theorem jsGet_jsSet_self (v : List Bool) (i : ℤ) (b : Bool)
    (h0 : 0 ≤ i) (hlen : i.toNat < v.length) :
    jsGet (jsSet v i b) i = b := by
  simp only [jsGet, jsSet, if_pos h0]
  rw [List.getD_eq_getElem?_getD, List.getElem?_set_self hlen]
  rfl

theorem jsGet_jsSet_ne (v : List Bool) (i j : ℤ) (b : Bool) (h : i ≠ j) :
    jsGet (jsSet v i b) j = jsGet v j := by
  unfold jsGet jsSet
  rcases le_or_lt 0 i with hi | hi
  · rcases le_or_lt 0 j with hj | hj
    · have : i.toNat ≠ j.toNat := fun hc => h (by omega)
      simp only [if_pos hj, if_pos hi]
      rw [List.getD_eq_getElem?_getD, List.getD_eq_getElem?_getD,
        List.getElem?_set_ne this]
    · simp [not_le.mpr hj]
  · simp [not_le.mpr hi]

theorem jsGet_jsSet_true_mono (v : List Bool) (i j : ℤ)
    (h : jsGet v j = true) : jsGet (jsSet v i true) j = true := by
  by_cases hij : i = j
  · subst hij
    have h0 : 0 ≤ i := by
      by_contra hc
      rw [jsGet_neg v i (by omega)] at h
      exact absurd h (by simp)
    have hlen : i.toNat < v.length := by
      by_contra hc
      push_neg at hc
      unfold jsGet at h
      rw [if_pos h0, List.getD_eq_getElem?_getD, List.getElem?_eq_none (by simpa using hc)] at h
      exact absurd h (by simp)
    rw [jsGet_jsSet_self v i true h0 hlen]
  · rw [jsGet_jsSet_ne v i j true hij, h]

/-! ## The grid: `buildCells` and the row-major index formula -/

theorem mem_rowBlock (side r : ℕ) (x : Cell) :
    x ∈ (List.range side).map (fun j => ((r, j) : Cell)) ↔ x.1 = r ∧ x.2 < side := by
  constructor
  · rintro hx
    rcases List.mem_map.mp hx with ⟨j, hj, rfl⟩
    exact ⟨rfl, by simpa using List.mem_range.mp hj⟩
  · rintro ⟨h1, h2⟩
    exact List.mem_map.mpr ⟨x.2, List.mem_range.mpr h2, by
      obtain ⟨x1, x2⟩ := x
      simp only at h1
      simp [h1]⟩

theorem FindCellIndex_rowBlock (side r c : ℕ) (hc : c < side) :
    FindCellIndex (r, c) ((List.range side).map fun j => ((r, j) : Cell)) = (c : ℤ) := by
  induction side with
  | zero => omega
  | succ n ih =>
    rw [List.range_succ, List.map_append]
    rcases Nat.lt_or_ge c n with hlt | hge
    · rw [FindCellIndex_append_left _ _ _ ((mem_rowBlock n r (r, c)).mpr ⟨rfl, hlt⟩)]
      exact ih hlt
    · have hc_eq : c = n := by omega
      subst hc_eq
      rw [FindCellIndex_append_right _ _ _
        (fun hm => by simpa using ((mem_rowBlock c r (r, c)).mp hm).2)
        (by simp)]
      simp [FindCellIndex]

theorem mem_buildCells (side : ℕ) (c : Cell) :
    c ∈ buildCells side ↔ inB side c := by
  unfold buildCells inB
  constructor
  · intro hc
    rcases List.mem_flatMap.mp hc with ⟨i, hi, hmem⟩
    rcases List.mem_map.mp hmem with ⟨j, hj, rfl⟩
    exact ⟨by simpa using List.mem_range.mp hi, by simpa using List.mem_range.mp hj⟩
  · rintro ⟨h1, h2⟩
    refine List.mem_flatMap.mpr ⟨c.1, List.mem_range.mpr h1, ?_⟩
    exact (mem_rowBlock side c.1 c).mpr ⟨rfl, h2⟩

theorem FindCellIndex_blocks (side c : ℕ) (hc : c < side) :
    ∀ (n s r : ℕ), r ∈ List.range' s n →
      FindCellIndex (r, c)
        ((List.range' s n).flatMap fun i => (List.range side).map fun j => ((i, j) : Cell)) =
      (((r - s) * side + c : ℕ) : ℤ) := by
  intro n
  induction n with
  | zero => intro s r hr; simp at hr
  | succ m ih =>
    intro s r hr
    rw [List.range'_succ, List.flatMap_cons]
    by_cases hs : s = r
    · subst hs
      rw [FindCellIndex_append_left _ _ _ ((mem_rowBlock side s (s, c)).mpr ⟨rfl, hc⟩),
        FindCellIndex_rowBlock side s c hc]
      simp
    · have hr2 : r ∈ List.range' (s + 1) m := by
        rcases List.mem_cons.mp (by rw [← List.range'_succ]; exact hr) with h | h
        · exact absurd h.symm hs
        · exact h
      have hs_lt : s + 1 ≤ r := by
        rcases List.mem_range'.mp hr2 with ⟨i, _, rfl⟩
        omega
      rw [FindCellIndex_append_right _ _ _
          (fun hm => hs ((mem_rowBlock side s (r, c)).mp hm).1.symm)
          (by
            refine List.mem_flatMap.mpr ⟨r, hr2, ?_⟩
            exact (mem_rowBlock side r (r, c)).mpr ⟨rfl, hc⟩),
        ih (s + 1) r hr2]
      have harith : (r - s) * side + c = side + ((r - (s + 1)) * side + c) := by
        have hd : r - s = (r - (s + 1)) + 1 := by omega
        rw [hd, Nat.add_mul, Nat.one_mul]
        ring
      rw [harith]
      push_cast
      simp

theorem FindCellIndex_buildCells (side r c : ℕ) (hr : r < side) (hc : c < side) :
    FindCellIndex (r, c) (buildCells side) = ((r * side + c : ℕ) : ℤ) := by
  unfold buildCells
  nth_rewrite 1 [List.range_eq_range']
  have := FindCellIndex_blocks side c hc side 0 r
    (by rw [← List.range_eq_range']; exact List.mem_range.mpr hr)
  simpa using this

theorem rowcol_lt (side r c : ℕ) (hr : r < side) (hc : c < side) :
    r * side + c < side * side := by
  calc r * side + c < r * side + side := by omega
  _ = (r + 1) * side := by ring
  _ ≤ side * side := Nat.mul_le_mul_right side hr

theorem rowcol_inj (side r c r2 c2 : ℕ) (hc : c < side) (hc2 : c2 < side)
    (h : r * side + c = r2 * side + c2) : r = r2 ∧ c = c2 := by
  have hside : 0 < side := by omega
  have hdiv : ∀ a b : ℕ, b < side → (a * side + b) / side = a := by
    intro a b hb
    rw [Nat.add_comm, Nat.add_mul_div_right _ _ hside, Nat.div_eq_of_lt hb, Nat.zero_add]
  have hmod : ∀ a b : ℕ, b < side → (a * side + b) % side = b := by
    intro a b hb
    rw [Nat.add_comm, Nat.add_mul_mod_self_right, Nat.mod_eq_of_lt hb]
  constructor
  · have h2 := congrArg (· / side) h
    simpa [hdiv r c hc, hdiv r2 c2 hc2] using h2
  · have h2 := congrArg (· % side) h
    simpa [hmod r c hc, hmod r2 c2 hc2] using h2

theorem length_buildCells (side : ℕ) :
    (buildCells side).length = side * side := by
  unfold buildCells
  rw [List.length_flatMap]
  have h1 : (List.length ∘ fun i => (List.range side).map fun j => ((i, j) : Cell))
      = fun _ => side := by
    funext i
    simp
  rw [h1, List.map_const', List.length_range, List.sum_replicate, smul_eq_mul]

theorem buildCells_nodup (side : ℕ) : (buildCells side).Nodup := by
  unfold buildCells
  rw [List.nodup_flatMap]
  constructor
  · intro i _
    exact (List.nodup_range side).map fun a b hab => by
      simpa using congrArg Prod.snd hab
  · have h := List.nodup_range side
    rw [List.Nodup] at h
    refine h.imp ?_
    intro a b hab x hxa hxb
    have ha := ((mem_rowBlock side a x).mp hxa).1
    have hb := ((mem_rowBlock side b x).mp hxb).1
    exact hab (ha ▸ hb ▸ rfl)

theorem cellIdx_eq (side r c : ℕ) (hr : r < side) (hc : c < side) :
    cellIdx side (r, c) = ((r * side + c : ℕ) : ℤ) :=
  FindCellIndex_buildCells side r c hr hc

theorem cellIdx_inj (side : ℕ) (a b : Cell) (ha : inB side a) (hb : inB side b)
    (h : cellIdx side a = cellIdx side b) : a = b := by
  obtain ⟨a1, a2⟩ := a
  obtain ⟨b1, b2⟩ := b
  obtain ⟨ha1, ha2⟩ := ha
  obtain ⟨hb1, hb2⟩ := hb
  rw [cellIdx_eq side a1 a2 ha1 ha2, cellIdx_eq side b1 b2 hb1 hb2] at h
  have h2 : a1 * side + a2 = b1 * side + b2 := by exact_mod_cast h
  obtain ⟨h3, h4⟩ := rowcol_inj side a1 a2 b1 b2 ha2 hb2 h2
  simp [h3, h4]

theorem cellIdx_nonneg (side : ℕ) (c : Cell) (h : inB side c) :
    0 ≤ cellIdx side c := by
  obtain ⟨c1, c2⟩ := c
  rw [cellIdx_eq side c1 c2 h.1 h.2]
  positivity

theorem cellIdx_toNat_lt (side : ℕ) (c : Cell) (h : inB side c) :
    (cellIdx side c).toNat < side * side := by
  obtain ⟨c1, c2⟩ := c
  rw [cellIdx_eq side c1 c2 h.1 h.2]
  simpa using rowcol_lt side c1 c2 h.1 h.2

/-! ## Basic lemmas: `Neighbors` -/

theorem mem_Neighbors (side row column : ℕ) (x : Cell) :
    x ∈ Neighbors side row column ↔
      (1 ≤ row ∧ x = (row - 1, column)) ∨
      (column + 1 < side ∧ x = (row, column + 1)) ∨
      (row + 1 < side ∧ x = (row + 1, column)) ∨
      (1 ≤ column ∧ x = (row, column - 1)) := by
  unfold Neighbors
  split_ifs <;> simp_all [Prod.ext_iff] <;> omega

theorem Neighbors_inB (side row column : ℕ) (h : inB side (row, column))
    (x : Cell) (hx : x ∈ Neighbors side row column) : inB side x := by
  obtain ⟨h1, h2⟩ := h
  rcases (mem_Neighbors side row column x).mp hx with ⟨hg, rfl⟩ | ⟨hg, rfl⟩ | ⟨hg, rfl⟩ | ⟨hg, rfl⟩ <;>
    exact ⟨by omega, by omega⟩

theorem Neighbors_symm (side row column : ℕ) (h : inB side (row, column))
    (x : Cell) (hx : x ∈ Neighbors side row column) :
    (row, column) ∈ Neighbors side x.1 x.2 := by
  obtain ⟨h1, h2⟩ := h
  rw [mem_Neighbors]
  rcases (mem_Neighbors side row column x).mp hx with ⟨hg, rfl⟩ | ⟨hg, rfl⟩ | ⟨hg, rfl⟩ | ⟨hg, rfl⟩ <;>
    simp [Prod.ext_iff] <;> omega

theorem Neighbors_self_not_mem (side row column : ℕ) :
    ((row, column) : Cell) ∉ Neighbors side row column := by
  intro h
  rcases (mem_Neighbors side row column _).mp h with ⟨hg, he⟩ | ⟨hg, he⟩ | ⟨hg, he⟩ | ⟨hg, he⟩ <;>
    (simp only [Prod.mk.injEq] at he; omega)

theorem Neighbors_nodup (side row column : ℕ) :
    (Neighbors side row column).Nodup := by
  unfold Neighbors
  split_ifs <;> simp_all [Prod.ext_iff] <;> omega

theorem gridAdjacent_of_mem_Neighbors (side row column : ℕ) (x : Cell)
    (hx : x ∈ Neighbors side row column) : gridAdjacent (row, column) x := by
  unfold gridAdjacent
  rcases (mem_Neighbors side row column x).mp hx with ⟨hg, rfl⟩ | ⟨hg, rfl⟩ | ⟨hg, rfl⟩ | ⟨hg, rfl⟩ <;>
    simp <;> omega

theorem mem_Neighbors_of_gridAdjacent (side : ℕ) (a b : Cell)
    (ha : inB side a) (hb : inB side b) (hadj : gridAdjacent a b) :
    b ∈ Neighbors side a.1 a.2 := by
  obtain ⟨a1, a2⟩ := a
  obtain ⟨b1, b2⟩ := b
  obtain ⟨ha1, ha2⟩ := ha
  obtain ⟨hb1, hb2⟩ := hb
  rw [mem_Neighbors]
  simp only [Prod.mk.injEq] at hadj ⊢
  rcases hadj with ⟨h1, h2 | h2⟩ | ⟨h1, h2 | h2⟩
  · exact Or.inr (Or.inl ⟨by omega, by omega, by omega⟩)
  · exact Or.inr (Or.inr (Or.inr ⟨by omega, by omega, by omega⟩))
  · exact Or.inr (Or.inr (Or.inl ⟨by omega, by omega, by omega⟩))
  · exact Or.inl ⟨by omega, by omega, by omega⟩

/-! ## Basic lemmas: `transparent`, `ConnectedNeighbors`, `CutEdge` -/

theorem transparent_cons (p : Cell × Border) (s : BorderState) (c : Cell) (b : Border) :
    transparent (p :: s) c b = true ↔ (c, b) = p ∨ transparent s c b = true := by
  simp [transparent]

theorem transparent_nil (c : Cell) (b : Border) : transparent [] c b = false := by
  simp [transparent]

theorem mem_CN (side : ℕ) (s : BorderState) (row column : ℕ) (x : Cell) :
    x ∈ ConnectedNeighbors side s row column ↔
      (1 ≤ row ∧ transparent s (row, column) Border.top = true ∧ x = (row - 1, column)) ∨
      (column + 1 < side ∧ transparent s (row, column) Border.right = true ∧ x = (row, column + 1)) ∨
      (row + 1 < side ∧ transparent s (row, column) Border.bottom = true ∧ x = (row + 1, column)) ∨
      (1 ≤ column ∧ transparent s (row, column) Border.left = true ∧ x = (row, column - 1)) := by
  have H : ∀ (c : Prop) (inst : Decidable c) (l : List Cell),
      (x ∈ (if c then l else [])) ↔ c ∧ x ∈ l := by
    intro c inst l
    split_ifs with h <;> simp [h]
  unfold ConnectedNeighbors
  simp only [List.mem_append, H, List.mem_singleton]
  tauto

theorem CN_nil (side row column : ℕ) :
    ConnectedNeighbors side [] row column = [] := by
  unfold ConnectedNeighbors
  simp [transparent_nil]

theorem CN_subset_Neighbors (side : ℕ) (s : BorderState) (row column : ℕ)
    (x : Cell) (h : x ∈ ConnectedNeighbors side s row column) :
    x ∈ Neighbors side row column := by
  rw [mem_Neighbors]
  rcases (mem_CN side s row column x).mp h with ⟨g, _, hx⟩ | ⟨g, _, hx⟩ | ⟨g, _, hx⟩ | ⟨g, _, hx⟩ <;>
    tauto

theorem CN_inB (side : ℕ) (s : BorderState) (row column : ℕ)
    (h : inB side (row, column)) (x : Cell)
    (hx : x ∈ ConnectedNeighbors side s row column) : inB side x :=
  Neighbors_inB side row column h x (CN_subset_Neighbors side s row column x hx)

theorem CN_nodup (side : ℕ) (s : BorderState) (row column : ℕ) :
    (ConnectedNeighbors side s row column).Nodup := by
  unfold ConnectedNeighbors
  split_ifs <;> simp_all [Prod.ext_iff] <;> omega

theorem transparent_CutEdge_mono (c1 c2 : Cell) (s : BorderState) (A : Cell)
    (b : Border) (h : transparent s A b = true) :
    transparent (CutEdge c1 c2 s) A b = true := by
  unfold CutEdge
  split_ifs <;> simp_all [transparent]

theorem mem_CN_cutEdge_mono (side : ℕ) (c1 c2 : Cell) (s : BorderState)
    (row column : ℕ) (x : Cell) (h : x ∈ ConnectedNeighbors side s row column) :
    x ∈ ConnectedNeighbors side (CutEdge c1 c2 s) row column := by
  rw [mem_CN] at h ⊢
  rcases h with ⟨g, t, hx⟩ | ⟨g, t, hx⟩ | ⟨g, t, hx⟩ | ⟨g, t, hx⟩
  · exact Or.inl ⟨g, transparent_CutEdge_mono c1 c2 s _ _ t, hx⟩
  · exact Or.inr (Or.inl ⟨g, transparent_CutEdge_mono c1 c2 s _ _ t, hx⟩)
  · exact Or.inr (Or.inr (Or.inl ⟨g, transparent_CutEdge_mono c1 c2 s _ _ t, hx⟩))
  · exact Or.inr (Or.inr (Or.inr ⟨g, transparent_CutEdge_mono c1 c2 s _ _ t, hx⟩))

theorem mem_CN_cutEdge_new (side : ℕ) (c1 c2 : Cell) (s : BorderState)
    (hadj : gridAdjacent c1 c2) (h1 : inB side c1) (h2 : inB side c2) :
    c2 ∈ ConnectedNeighbors side (CutEdge c1 c2 s) c1.1 c1.2 ∧
    c1 ∈ ConnectedNeighbors side (CutEdge c1 c2 s) c2.1 c2.2 := by
  obtain ⟨a1, a2⟩ := c1
  obtain ⟨b1, b2⟩ := c2
  obtain ⟨hi1, hi2⟩ := h1
  obtain ⟨hj1, hj2⟩ := h2
  rcases hadj with ⟨hr, hc | hc⟩ | ⟨hr, hc | hc⟩ <;>
    simp only at hr hc hi1 hi2 hj1 hj2 <;>
    rw [show CutEdge (a1, a2) (b1, b2) s = _ from by
      unfold CutEdge; simp only; split_ifs <;> first | omega | rfl] <;>
    constructor <;>
    rw [mem_CN] <;>
    simp only [transparent_cons] <;>
    first
    | exact Or.inl ⟨by omega, Or.inl trivial,
        by simp only [Prod.mk.injEq]; omega⟩
    | exact Or.inl ⟨by omega, Or.inr (Or.inl trivial),
        by simp only [Prod.mk.injEq]; omega⟩
    | exact Or.inr (Or.inl ⟨by omega, Or.inl trivial,
        by simp only [Prod.mk.injEq]; omega⟩)
    | exact Or.inr (Or.inl ⟨by omega, Or.inr (Or.inl trivial),
        by simp only [Prod.mk.injEq]; omega⟩)
    | exact Or.inr (Or.inr (Or.inl ⟨by omega, Or.inl trivial,
        by simp only [Prod.mk.injEq]; omega⟩))
    | exact Or.inr (Or.inr (Or.inl ⟨by omega, Or.inr (Or.inl trivial),
        by simp only [Prod.mk.injEq]; omega⟩))
    | exact Or.inr (Or.inr (Or.inr ⟨by omega, Or.inl trivial,
        by simp only [Prod.mk.injEq]; omega⟩))
    | exact Or.inr (Or.inr (Or.inr ⟨by omega, Or.inr (Or.inl trivial),
        by simp only [Prod.mk.injEq]; omega⟩))

theorem mem_CN_cutEdge_rev (side : ℕ) (c1 c2 : Cell) (s : BorderState)
    (hadj : gridAdjacent c1 c2) (A x : Cell)
    (hx : x ∈ ConnectedNeighbors side (CutEdge c1 c2 s) A.1 A.2) :
    x ∈ ConnectedNeighbors side s A.1 A.2 ∨ (A = c1 ∧ x = c2) ∨ (A = c2 ∧ x = c1) := by
  obtain ⟨a1, a2⟩ := c1
  obtain ⟨b1, b2⟩ := c2
  obtain ⟨A1, A2⟩ := A
  obtain ⟨x1, x2⟩ := x
  rcases hadj with ⟨hr, hc | hc⟩ | ⟨hr, hc | hc⟩ <;>
    simp only at hr hc <;>
    rw [show CutEdge (a1, a2) (b1, b2) s = _ from by
      unfold CutEdge; simp only; split_ifs <;> first | omega | rfl] at hx <;>
    simp only at hx ⊢ <;>
    rw [mem_CN] at hx <;>
    simp only [transparent_cons] at hx <;>
    (rcases hx with ⟨g, t, hxe⟩ | ⟨g, t, hxe⟩ | ⟨g, t, hxe⟩ | ⟨g, t, hxe⟩ <;>
      rcases t with t | t | t <;>
      first
      | exact Or.inl ((mem_CN side s A1 A2 (x1, x2)).mpr (Or.inl ⟨g, t, hxe⟩))
      | exact Or.inl ((mem_CN side s A1 A2 (x1, x2)).mpr (Or.inr (Or.inl ⟨g, t, hxe⟩)))
      | exact Or.inl ((mem_CN side s A1 A2 (x1, x2)).mpr (Or.inr (Or.inr (Or.inl ⟨g, t, hxe⟩))))
      | exact Or.inl ((mem_CN side s A1 A2 (x1, x2)).mpr (Or.inr (Or.inr (Or.inr ⟨g, t, hxe⟩))))
      | (have hb := congrArg Prod.snd t
         simp only at hb
         exact absurd hb (by decide))
      | (simp only [Prod.mk.injEq] at t hxe
         refine Or.inr (Or.inl ⟨?_, ?_⟩) <;> simp only [Prod.mk.injEq] <;> omega)
      | (simp only [Prod.mk.injEq] at t hxe
         refine Or.inr (Or.inr ⟨?_, ?_⟩) <;> simp only [Prod.mk.injEq] <;> omega))

/-! ## Basic lemmas: `GetAllEdges`, `openEdges`, `Reach` -/

theorem mem_GetAllEdges (side : ℕ) (e : Cell × Cell) :
    e ∈ GetAllEdges side ↔
      inB side e.1 ∧ inB side e.2 ∧
        (e.2 = (e.1.1 + 1, e.1.2) ∨ e.2 = (e.1.1, e.1.2 + 1)) := by
  obtain ⟨⟨p1, p2⟩, q1, q2⟩ := e
  have H : ∀ (c : Prop) (inst : Decidable c) (a : Cell × Cell),
      ((((p1, p2), (q1, q2)) : Cell × Cell) ∈ (if c then [a] else [])) ↔
        (c ∧ (((p1, p2), (q1, q2)) : Cell × Cell) = a) := by
    intro c inst a
    split_ifs with h <;> simp [h]
  unfold GetAllEdges inB
  simp only [List.mem_flatMap, List.mem_range, List.mem_append, H,
    Prod.mk.injEq]
  constructor
  · rintro ⟨x, hx, y, hy, ⟨hg, ⟨e1, e2⟩, e3, e4⟩ | ⟨hg, ⟨e1, e2⟩, e3, e4⟩⟩
    · exact ⟨⟨by omega, by omega⟩, ⟨by omega, by omega⟩, Or.inl ⟨by omega, by omega⟩⟩
    · exact ⟨⟨by omega, by omega⟩, ⟨by omega, by omega⟩, Or.inr ⟨by omega, by omega⟩⟩
  · rintro ⟨⟨h1, h2⟩, ⟨h3, h4⟩, ⟨e1, e2⟩ | ⟨e1, e2⟩⟩
    · exact ⟨p1, by omega, p2, by omega, Or.inl ⟨by omega, ⟨rfl, rfl⟩, by omega, by omega⟩⟩
    · exact ⟨p1, by omega, p2, by omega, Or.inr ⟨by omega, ⟨rfl, rfl⟩, by omega, by omega⟩⟩

theorem GetAllEdges_endpoints_adjacent (side : ℕ) (e : Cell × Cell)
    (he : e ∈ GetAllEdges side) : gridAdjacent e.1 e.2 := by
  rcases (mem_GetAllEdges side e).mp he with ⟨_, _, h | h⟩ <;>
    unfold gridAdjacent <;> rw [h] <;> simp

theorem canonEdge_mem_GetAllEdges (side : ℕ) (a b : Cell)
    (hadj : gridAdjacent a b) (ha : inB side a) (hb : inB side b) :
    canonEdge a b ∈ GetAllEdges side := by
  obtain ⟨a1, a2⟩ := a
  obtain ⟨b1, b2⟩ := b
  obtain ⟨ha1, ha2⟩ := ha
  obtain ⟨hb1, hb2⟩ := hb
  rw [mem_GetAllEdges]
  unfold canonEdge
  rcases hadj with ⟨hr, hc | hc⟩ | ⟨hr, hc | hc⟩ <;> simp only at hr hc <;>
    split_ifs with hcond <;>
    simp only [Prod.mk.injEq] at hcond ⊢ <;>
    first
    | exact ⟨⟨by omega, by omega⟩, ⟨by omega, by omega⟩, Or.inl ⟨by omega, by omega⟩⟩
    | exact ⟨⟨by omega, by omega⟩, ⟨by omega, by omega⟩, Or.inr ⟨by omega, by omega⟩⟩

theorem edgeOpen_mono_cut (side : ℕ) (c1 c2 : Cell) (s : BorderState)
    (e : Cell × Cell) (h : edgeOpen side s e = true) :
    edgeOpen side (CutEdge c1 c2 s) e = true := by
  unfold edgeOpen at h ⊢
  simp only [Bool.or_eq_true, decide_eq_true_eq] at h ⊢
  rcases h with h | h
  · exact Or.inl (mem_CN_cutEdge_mono side c1 c2 s _ _ _ h)
  · exact Or.inr (mem_CN_cutEdge_mono side c1 c2 s _ _ _ h)

theorem edgeOpen_cutEdge_self (side : ℕ) (c1 c2 : Cell) (s : BorderState)
    (hadj : gridAdjacent c1 c2) (h1 : inB side c1) (h2 : inB side c2) :
    edgeOpen side (CutEdge c1 c2 s) (canonEdge c1 c2) = true := by
  obtain ⟨hm1, hm2⟩ := mem_CN_cutEdge_new side c1 c2 s hadj h1 h2
  unfold canonEdge edgeOpen
  split_ifs <;> simp only [Bool.or_eq_true, decide_eq_true_eq]
  · exact Or.inl hm1
  · exact Or.inl hm2

theorem edgeOpen_cutEdge_rev (side : ℕ) (c1 c2 : Cell) (s : BorderState)
    (hadj : gridAdjacent c1 c2) (e : Cell × Cell) (he : e ∈ GetAllEdges side)
    (h : edgeOpen side (CutEdge c1 c2 s) e = true) :
    edgeOpen side s e = true ∨ e = canonEdge c1 c2 := by
  have hdir := (mem_GetAllEdges side e).mp he
  unfold edgeOpen at h ⊢
  simp only [Bool.or_eq_true, decide_eq_true_eq] at h ⊢
  rcases h with h | h
  · rcases mem_CN_cutEdge_rev side c1 c2 s hadj e.1 e.2 h with h2 | ⟨hA, hx⟩ | ⟨hA, hx⟩
    · exact Or.inl (Or.inl h2)
    · -- e = (c1, c2): the canonical orientation is (c1, c2)
      right
      unfold canonEdge
      rw [if_pos]
      · rw [← hA, ← hx]
      · rcases hdir.2.2 with hd | hd <;> rw [← hA, ← hx, hd] <;> simp
    · -- e = (c2, c1)
      right
      unfold canonEdge
      rw [if_neg]
      · rw [← hA, ← hx]
      · rcases hdir.2.2 with hd | hd <;> rw [← hA, ← hx, hd] <;> simp <;> omega
  · rcases mem_CN_cutEdge_rev side c1 c2 s hadj e.2 e.1 h with h2 | ⟨hA, hx⟩ | ⟨hA, hx⟩
    · exact Or.inl (Or.inr h2)
    · -- e.2 = c1, e.1 = c2 : e = (c2, c1)
      right
      unfold canonEdge
      rw [if_neg]
      · rw [← hA, ← hx]
      · rcases hdir.2.2 with hd | hd <;> rw [← hA, ← hx, hd] <;> simp <;> omega
    · right
      unfold canonEdge
      rw [if_pos]
      · rw [← hA, ← hx]
      · rcases hdir.2.2 with hd | hd <;> rw [← hA, ← hx, hd] <;> simp

theorem openEdges_nil (side : ℕ) : openEdges side [] = ∅ := by
  unfold openEdges
  rw [Finset.filter_eq_empty_iff]
  intro e _
  unfold edgeOpen
  simp [CN_nil]

theorem openEdges_cutEdge (side : ℕ) (c1 c2 : Cell) (s : BorderState)
    (hadj : gridAdjacent c1 c2) (h1 : inB side c1) (h2 : inB side c2) :
    openEdges side (CutEdge c1 c2 s) = insert (canonEdge c1 c2) (openEdges side s) := by
  ext e
  unfold openEdges
  simp only [Finset.mem_insert, Finset.mem_filter, List.mem_toFinset]
  constructor
  · rintro ⟨hmem, hopen⟩
    rcases edgeOpen_cutEdge_rev side c1 c2 s hadj e hmem hopen with h | h
    · exact Or.inr ⟨hmem, h⟩
    · exact Or.inl h
  · rintro (rfl | ⟨hmem, hopen⟩)
    · exact ⟨canonEdge_mem_GetAllEdges side c1 c2 hadj h1 h2,
        edgeOpen_cutEdge_self side c1 c2 s hadj h1 h2⟩
    · exact ⟨hmem, edgeOpen_mono_cut side c1 c2 s e hopen⟩

theorem openEdges_endpoints_open (side : ℕ) (s : BorderState) (e : Cell × Cell)
    (he : e ∈ openEdges side s) :
    e.2 ∈ ConnectedNeighbors side s e.1.1 e.1.2 ∨
    e.1 ∈ ConnectedNeighbors side s e.2.1 e.2.2 := by
  unfold openEdges edgeOpen at he
  simp only [Finset.mem_filter, Bool.or_eq_true, decide_eq_true_eq] at he
  exact he.2

theorem openAdj_symmetric (side : ℕ) (s : BorderState) :
    Symmetric (openAdj side s) := by
  intro a b h
  unfold openAdj at h ⊢
  tauto

theorem reach_symm (side : ℕ) (s : BorderState) (a b : Cell)
    (h : Reach side s a b) : Reach side s b a :=
  Relation.ReflTransGen.symmetric (openAdj_symmetric side s) h

theorem reach_mono_cut (side : ℕ) (c1 c2 : Cell) (s : BorderState) (a b : Cell)
    (h : Reach side s a b) : Reach side (CutEdge c1 c2 s) a b := by
  refine Relation.ReflTransGen.mono ?_ h
  intro x y hxy
  unfold openAdj at hxy ⊢
  rcases hxy with h2 | h2
  · exact Or.inl (mem_CN_cutEdge_mono side c1 c2 s _ _ _ h2)
  · exact Or.inr (mem_CN_cutEdge_mono side c1 c2 s _ _ _ h2)

theorem reach_cut_new (side : ℕ) (c1 c2 : Cell) (s : BorderState)
    (hadj : gridAdjacent c1 c2) (h1 : inB side c1) (h2 : inB side c2) :
    Reach side (CutEdge c1 c2 s) c1 c2 :=
  Relation.ReflTransGen.single
    (Or.inl (mem_CN_cutEdge_new side c1 c2 s hadj h1 h2).1)

/-! ## Grid connectivity: a property closed under grid adjacency that
holds somewhere holds everywhere -/

theorem grid_closure (side : ℕ) (P : Cell → Prop)
    (hclosed : ∀ a, inB side a → P a → ∀ b ∈ Neighbors side a.1 a.2, P b)
    (a0 : Cell) (ha0 : inB side a0) (hP0 : P a0) :
    ∀ b, inB side b → P b := by
  have down_col : ∀ (r c : ℕ), r < side → c < side → P (r, c) → P (r, 0) := by
    intro r c hr
    induction c with
    | zero => intro _ h; exact h
    | succ k ih =>
      intro hc h
      have h2 : P (r, k) := by
        have := hclosed (r, k + 1) ⟨hr, hc⟩ h (r, k)
        refine this ((mem_Neighbors side r (k + 1) (r, k)).mpr ?_)
        refine Or.inr (Or.inr (Or.inr ⟨by omega, ?_⟩))
        simp
      exact ih (by omega) h2
  have down_row : ∀ (r : ℕ), r < side → P (r, 0) → P (0, 0) := by
    intro r
    induction r with
    | zero => intro _ h; exact h
    | succ k ih =>
      intro hr h
      have h2 : P (k, 0) := by
        have := hclosed (k + 1, 0) ⟨hr, by omega⟩ h (k, 0)
        refine this ((mem_Neighbors side (k + 1) 0 (k, 0)).mpr ?_)
        refine Or.inl ⟨by omega, ?_⟩
        simp
      exact ih (by omega) h2
  have up_row : ∀ (r : ℕ), r < side → P (0, 0) → P (r, 0) := by
    intro r
    induction r with
    | zero => intro _ h; exact h
    | succ k ih =>
      intro hr h
      have h2 : P (k, 0) := ih (by omega) h
      have := hclosed (k, 0) ⟨by omega, by omega⟩ h2 (k + 1, 0)
      exact this ((mem_Neighbors side k 0 (k + 1, 0)).mpr
        (Or.inr (Or.inr (Or.inl ⟨by omega, rfl⟩))))
  have up_col : ∀ (r c : ℕ), r < side → c < side → P (r, 0) → P (r, c) := by
    intro r c hr
    induction c with
    | zero => intro _ h; exact h
    | succ k ih =>
      intro hc h
      have h2 : P (r, k) := ih (by omega) h
      have := hclosed (r, k) ⟨hr, by omega⟩ h2 (r, k + 1)
      exact this ((mem_Neighbors side r k (r, k + 1)).mpr
        (Or.inr (Or.inl ⟨by omega, rfl⟩)))
  intro b hb
  obtain ⟨b1, b2⟩ := b
  obtain ⟨hb1, hb2⟩ := hb
  obtain ⟨a1, a2⟩ := a0
  obtain ⟨ha1, ha2⟩ := ha0
  exact up_col b1 b2 hb1 hb2
    (up_row b1 hb1 (down_row a1 ha1 (down_col a1 a2 ha1 ha2 hP0)))

/-! ## Symmetry of the passage state -/

theorem transparent_cons_mono (p : Cell × Border) (s : BorderState) (c : Cell)
    (b : Border) (h : transparent s c b = true) :
    transparent (p :: s) c b = true :=
  (transparent_cons p s c b).mpr (Or.inr h)

theorem mem_CN_entranceExit (side : ℕ) (s : BorderState) (A x : Cell)
    (hA : inB side A) :
    x ∈ ConnectedNeighbors side (CreateEntranceAndExit side s) A.1 A.2 ↔
    x ∈ ConnectedNeighbors side s A.1 A.2 := by
  obtain ⟨A1, A2⟩ := A
  obtain ⟨hA1, hA2⟩ := hA
  unfold CreateEntranceAndExit
  simp only
  constructor
  · intro h
    rw [mem_CN] at h ⊢
    simp only [transparent_cons] at h
    rcases h with ⟨g, t, hxe⟩ | ⟨g, t, hxe⟩ | ⟨g, t, hxe⟩ | ⟨g, t, hxe⟩ <;>
      rcases t with t | t | t <;>
      first
      | exact Or.inl ⟨g, t, hxe⟩
      | exact Or.inr (Or.inl ⟨g, t, hxe⟩)
      | exact Or.inr (Or.inr (Or.inl ⟨g, t, hxe⟩))
      | exact Or.inr (Or.inr (Or.inr ⟨g, t, hxe⟩))
      | (have hb := congrArg Prod.snd t
         simp only at hb
         exact absurd hb (by decide))
      | (simp only [Prod.mk.injEq] at t
         omega)
  · intro h
    rw [mem_CN] at h ⊢
    rcases h with ⟨g, t, hxe⟩ | ⟨g, t, hxe⟩ | ⟨g, t, hxe⟩ | ⟨g, t, hxe⟩
    · exact Or.inl ⟨g, transparent_cons_mono _ _ _ _ (transparent_cons_mono _ _ _ _ t), hxe⟩
    · exact Or.inr (Or.inl ⟨g, transparent_cons_mono _ _ _ _ (transparent_cons_mono _ _ _ _ t), hxe⟩)
    · exact Or.inr (Or.inr (Or.inl ⟨g, transparent_cons_mono _ _ _ _ (transparent_cons_mono _ _ _ _ t), hxe⟩))
    · exact Or.inr (Or.inr (Or.inr ⟨g, transparent_cons_mono _ _ _ _ (transparent_cons_mono _ _ _ _ t), hxe⟩))

theorem symState_nil (side : ℕ) : SymState side [] := by
  intro A B _ _
  simp [CN_nil]

theorem symState_cut (side : ℕ) (s : BorderState) (c1 c2 : Cell)
    (h : SymState side s) (hadj : gridAdjacent c1 c2)
    (h1 : inB side c1) (h2 : inB side c2) :
    SymState side (CutEdge c1 c2 s) := by
  have key : ∀ X Y : Cell, inB side X → inB side Y →
      Y ∈ ConnectedNeighbors side (CutEdge c1 c2 s) X.1 X.2 →
      X ∈ ConnectedNeighbors side (CutEdge c1 c2 s) Y.1 Y.2 := by
    intro X Y hX hY hm
    rcases mem_CN_cutEdge_rev side c1 c2 s hadj X Y hm with hold | ⟨he1, he2⟩ | ⟨he1, he2⟩
    · exact mem_CN_cutEdge_mono side c1 c2 s _ _ _ ((h X Y hX hY).mp hold)
    · rw [he1, he2]
      exact (mem_CN_cutEdge_new side c1 c2 s hadj h1 h2).2
    · rw [he1, he2]
      exact (mem_CN_cutEdge_new side c1 c2 s hadj h1 h2).1
  intro A B hA hB
  exact ⟨key A B hA hB, key B A hB hA⟩

theorem symState_entranceExit (side : ℕ) (s : BorderState)
    (h : SymState side s) : SymState side (CreateEntranceAndExit side s) := by
  intro A B hA hB
  rw [mem_CN_entranceExit side s A B hA, mem_CN_entranceExit side s B A hB]
  exact h A B hA hB

theorem symState_foldl (side : ℕ) (ops : List MazeOp)
    (hwf : ∀ op ∈ ops, opWF side op) :
    ∀ s, SymState side s → SymState side (ops.foldl (applyOp side) s) := by
  induction ops with
  | nil => intro s hs; exact hs
  | cons op rest ih =>
    intro s hs
    rw [List.foldl_cons]
    refine ih (fun o ho => hwf o (List.mem_cons_of_mem op ho)) _ ?_
    have hop := hwf op (List.mem_cons_self op rest)
    cases op with
    | cut c1 c2 =>
      obtain ⟨hadj, h1, h2⟩ := hop
      exact symState_cut side s c1 c2 hs hadj h1 h2
    | entranceExit =>
      exact symState_entranceExit side s hs

/-! ## Claim C4: `OpenPassage` on non-adjacent cells -/

/-- **C4 (counterexample).** The claim says `OpenPassage` (`CutEdge`) on a
non-adjacent pair fails with `NotAdjacent` rather than silently doing
nothing or modifying passage state.  In fact `CutEdge` raises no error at
all: on the non-adjacent pair `(0,0), (0,2)` it silently does nothing
(returns the state unchanged), and on the non-adjacent diagonal pair
`(0,0), (1,1)` it even modifies the passage state. -/
theorem cutEdge_notAdjacent_counterexample :
    ¬ gridAdjacent (0, 0) (0, 2) ∧ CutEdge (0, 0) (0, 2) [] = [] ∧
    ¬ gridAdjacent (0, 0) (1, 1) ∧ CutEdge (0, 0) (1, 1) [] ≠ [] := by
  decide

/-- **C4 (amended).** `CutEdge` performs no adjacency validation and never
fails: called on a non-adjacent pair it returns normally, and it modifies
the passage state iff one of its four directional coordinate tests
matches (as happens for diagonal pairs); otherwise it silently leaves the
state unchanged. -/
theorem cutEdge_notAdjacent_behavior (A B : Cell) (s : BorderState)
    (_h : ¬ gridAdjacent A B) :
    CutEdge A B s ≠ s ↔
      (A.2 = B.2 + 1 ∨ A.2 + 1 = B.2 ∨ A.1 = B.1 + 1 ∨ A.1 + 1 = B.1) := by
  unfold CutEdge
  split_ifs with h1 h2 h3 h4
  · exact iff_of_true
      (fun hc => by have := congrArg List.length hc; simp at this; omega)
      (Or.inl h1)
  · exact iff_of_true
      (fun hc => by have := congrArg List.length hc; simp at this; omega)
      (Or.inr (Or.inl h2))
  · exact iff_of_true
      (fun hc => by have := congrArg List.length hc; simp at this; omega)
      (Or.inr (Or.inr (Or.inl h3)))
  · exact iff_of_true
      (fun hc => by have := congrArg List.length hc; simp at this; omega)
      (Or.inr (Or.inr (Or.inr h4)))
  · exact iff_of_false (fun hc => hc rfl) (by tauto)

/-- **C4 (witness).** The amended statement at the concrete non-adjacent
input `(0,0), (0,2)` with the empty passage state. -/
theorem cutEdge_notAdjacent_behavior_witness :
    CutEdge (0, 0) (0, 2) [] ≠ [] ↔
      ((0 : ℕ) = 2 + 1 ∨ (0 : ℕ) + 1 = 2 ∨ (0 : ℕ) = 0 + 1 ∨ (0 : ℕ) + 1 = 0) :=
  cutEdge_notAdjacent_behavior (0, 0) (0, 2) [] (by decide)

/-! ## Claim C9: the linear scan equals row-major index arithmetic -/

/-- **C9.** For every in-bounds cell `(row, column)`, the linear-scan
lookup `FindCellIndex` applied to the row-major cell list built at grid
initialization returns exactly `row * side + column`: the naive scan is
behaviorally equivalent to direct index arithmetic. -/
theorem findCellIndex_rowMajor_equiv (side row column : ℕ)
    (hr : row < side) (hc : column < side) :
    FindCellIndex (row, column) (buildCells side) = ((row * side + column : ℕ) : ℤ) :=
  FindCellIndex_buildCells side row column hr hc

/-- **C9 (witness).** The equivalence at the concrete in-bounds cell
`(1, 2)` of the 3×3 grid: the scan returns `1 * 3 + 2 = 5`. -/
theorem findCellIndex_rowMajor_equiv_witness :
    FindCellIndex (1, 2) (buildCells 3) = ((1 * 3 + 2 : ℕ) : ℤ) :=
  findCellIndex_rowMajor_equiv 3 1 2 (by decide) (by decide)

/-! ## Claim C8: determinism under fixed randomness -/

/-- **C8.** Each generator is a deterministic function of the injected
random draws: runs of the same generator from the same freshly
initialized state with the same sequence of draws produce identical
final states (in particular, the same set of open passages). -/
theorem generators_deterministic (side : ℕ) (rng1 rng2 : Rng)
    (h : ∀ i, rng1 i = rng2 i) :
    PrimsAlgorithm side rng1 = PrimsAlgorithm side rng2 ∧
    Kruskals side rng1 = Kruskals side rng2 ∧
    RecursiveBacktrack side rng1 = RecursiveBacktrack side rng2 := by
  have heq : rng1 = rng2 := funext h
  subst heq
  exact ⟨rfl, rfl, rfl⟩

/-- **C8 (witness).** Determinism instantiated on the 3×3 grid with the
all-zero draw stream. -/
theorem generators_deterministic_witness :
    PrimsAlgorithm 3 (fun _ => 0) = PrimsAlgorithm 3 (fun _ => 0) ∧
    Kruskals 3 (fun _ => 0) = Kruskals 3 (fun _ => 0) ∧
    RecursiveBacktrack 3 (fun _ => 0) = RecursiveBacktrack 3 (fun _ => 0) :=
  generators_deterministic 3 (fun _ => 0) (fun _ => 0) (fun _ => rfl)

/-! ## Claim C7: symmetry of the passage state -/

/-- **C7.** After any sequence of passage-opening operations — `CutEdge`
calls on grid-adjacent in-bounds pairs, as every generator call is, and
entrance/exit creation — starting from the all-closed state, the passage
state is symmetric: one in-bounds cell is listed among the connected
neighbours of another exactly when the other lists it back. -/
theorem passage_state_symmetric (side : ℕ) (ops : List MazeOp)
    (hwf : ∀ op ∈ ops, opWF side op) (A B : Cell)
    (hA : inB side A) (hB : inB side B) :
    B ∈ ConnectedNeighbors side (applyOps side ops) A.1 A.2 ↔
    A ∈ ConnectedNeighbors side (applyOps side ops) B.1 B.2 :=
  symState_foldl side ops hwf [] (symState_nil side) A B hA hB

/-- **C7 (witness).** Symmetry instantiated on the 3×3 grid after opening
the passage `(0,0)–(0,1)` and creating the entrance and exit. -/
theorem passage_state_symmetric_witness :
    ((0, 1) : Cell) ∈ ConnectedNeighbors 3
        (applyOps 3 [MazeOp.cut (0, 0) (0, 1), MazeOp.entranceExit]) 0 0 ↔
    ((0, 0) : Cell) ∈ ConnectedNeighbors 3
        (applyOps 3 [MazeOp.cut (0, 0) (0, 1), MazeOp.entranceExit]) 0 1 :=
  passage_state_symmetric 3 [MazeOp.cut (0, 0) (0, 1), MazeOp.entranceExit]
    (by decide) (0, 0) (0, 1) (by decide) (by decide)

/-! ## Claim C2: the backtracker under the first-candidate random source -/

/-- **C2 (counterexample).** The claim's passage set for the 3×3
first-candidate run contains the passage `(0,0)–(1,0)`; the actual run
never opens it (the first candidate from `(0,0)` is the East neighbour
`(0,1)`, since `Neighbors` lists North, East, South, West in that order),
and the produced open-passage set differs from the claimed set. -/
theorem rb_first_choice_claim_false :
    edgeOpen 3 (RecursiveBacktrack 3 (fun _ => 0)).borders ((0, 0), (1, 0)) = false ∧
    openEdges 3 (RecursiveBacktrack 3 (fun _ => 0)).borders ≠
      {(((0, 0) : Cell), ((1, 0) : Cell)), ((1, 0), (2, 0)), ((2, 0), (2, 1)),
       ((2, 1), (2, 2)), ((1, 2), (2, 2)), ((1, 1), (1, 2)), ((0, 1), (1, 1)),
       ((0, 1), (0, 2))} := by
  decide

/-- **C2 (amended).** On the 3×3 grid, the Recursive Backtracker driven by
a random source that always selects the first candidate (start cell
`(0,0)`, and at every step the first unvisited neighbour in N, E, S, W
order) produces exactly the passage set
`{(0,0)–(0,1), (0,1)–(0,2), (0,2)–(1,2), (1,2)–(2,2), (2,1)–(2,2),
(1,1)–(2,1), (1,0)–(1,1), (1,0)–(2,0)}` — a single path that runs east
along the top row and then spirals through the remaining cells. -/
theorem rb_first_choice_run :
    openEdges 3 (RecursiveBacktrack 3 (fun _ => 0)).borders =
      {(((0, 0) : Cell), ((0, 1) : Cell)), ((0, 1), (0, 2)), ((0, 2), (1, 2)),
       ((1, 2), (2, 2)), ((2, 1), (2, 2)), ((1, 1), (2, 1)), ((1, 0), (1, 1)),
       ((1, 0), (2, 0))} := by
  decide

/-! ## Counting visited cells -/

theorem mem_gridFinset (side : ℕ) (c : Cell) :
    c ∈ gridFinset side ↔ inB side c := by
  unfold gridFinset
  rw [List.mem_toFinset]
  exact mem_buildCells side c

theorem gridFinset_card (side : ℕ) : (gridFinset side).card = side * side := by
  unfold gridFinset
  rw [List.toFinset_card_of_nodup (buildCells_nodup side), length_buildCells]

theorem visCard_le (side : ℕ) (v : List Bool) :
    visCard side v ≤ side * side := by
  unfold visCard
  calc ((gridFinset side).filter fun c => jsGet v (cellIdx side c) = true).card
      ≤ (gridFinset side).card := Finset.card_filter_le _ _
  _ = side * side := gridFinset_card side

theorem jsGet_set_true_iff (side : ℕ) (v : List Bool) (c x : Cell)
    (hc : inB side c) (hx : inB side x) (hlen : v.length = side * side) :
    jsGet (jsSet v (cellIdx side c) true) (cellIdx side x) = true ↔
      jsGet v (cellIdx side x) = true ∨ x = c := by
  by_cases hxc : x = c
  · subst hxc
    rw [jsGet_jsSet_self v _ true (cellIdx_nonneg side x hx)
      (by rw [hlen]; exact cellIdx_toNat_lt side x hx)]
    simp
  · have hne : cellIdx side c ≠ cellIdx side x :=
      fun h => hxc (cellIdx_inj side x c hx hc h.symm)
    rw [jsGet_jsSet_ne v _ _ true hne]
    simp [hxc]

theorem visCard_set_true (side : ℕ) (v : List Bool) (c : Cell)
    (hc : inB side c) (hlen : v.length = side * side)
    (hunvis : jsGet v (cellIdx side c) = false) :
    visCard side (jsSet v (cellIdx side c) true) = visCard side v + 1 := by
  unfold visCard
  have hset : ((gridFinset side).filter fun x =>
      jsGet (jsSet v (cellIdx side c) true) (cellIdx side x) = true)
      = insert c ((gridFinset side).filter fun x => jsGet v (cellIdx side x) = true) := by
    ext x
    simp only [Finset.mem_insert, Finset.mem_filter, mem_gridFinset]
    constructor
    · rintro ⟨hxg, hxv⟩
      rcases (jsGet_set_true_iff side v c x hc hxg hlen).mp hxv with h | h
      · exact Or.inr ⟨hxg, h⟩
      · exact Or.inl h
    · rintro (rfl | ⟨hxg, hxv⟩)
      · exact ⟨hc, (jsGet_set_true_iff side v x x hc hc hlen).mpr (Or.inr rfl)⟩
      · exact ⟨hxg, (jsGet_set_true_iff side v c x hc hxg hlen).mpr (Or.inl hxv)⟩
  rw [hset, Finset.card_insert_of_not_mem]
  intro hmem
  rw [Finset.mem_filter] at hmem
  rw [hmem.2] at hunvis
  exact absurd hunvis (by simp)

theorem visCard_lt_of_unvis (side : ℕ) (v : List Bool) (c : Cell)
    (hc : inB side c) (hunvis : jsGet v (cellIdx side c) = false) :
    visCard side v < side * side := by
  unfold visCard
  rw [← gridFinset_card side]
  refine Finset.card_lt_card ?_
  rw [Finset.ssubset_iff_of_subset (Finset.filter_subset _ _)]
  refine ⟨c, (mem_gridFinset side c).mpr hc, ?_⟩
  rw [Finset.mem_filter]
  rintro ⟨_, hv⟩
  rw [hv] at hunvis
  exact absurd hunvis (by simp)

theorem visCard_eq_all (side : ℕ) (v : List Bool)
    (hall : ∀ c : Cell, inB side c → jsGet v (cellIdx side c) = true) :
    visCard side v = side * side := by
  unfold visCard
  rw [← gridFinset_card side]
  congr 1
  rw [Finset.filter_eq_self]
  intro c hcg
  exact hall c ((mem_gridFinset side c).mp hcg)

/-! ## The frontier-push fold of `primStep` -/

theorem primFold_mem (side : ℕ) (visited1 : List Bool) (l fr : List Cell) (x : Cell) :
    (x ∈ l.foldl
      (fun fr nb =>
        if jsGet visited1 (FindCellIndex nb (buildCells side)) = false ∧
            FindCellIndex nb fr < 0 then
          fr ++ [nb]
        else fr)
      fr) ↔
      x ∈ fr ∨ (x ∈ l ∧ jsGet visited1 (cellIdx side x) = false) := by
  induction l generalizing fr with
  | nil => simp
  | cons nb rest ih =>
    rw [List.foldl_cons, ih]
    have hstep : (x ∈ if jsGet visited1 (FindCellIndex nb (buildCells side)) = false ∧
          FindCellIndex nb fr < 0 then fr ++ [nb] else fr) ↔
        x ∈ fr ∨ (x = nb ∧ jsGet visited1 (cellIdx side nb) = false) := by
      split_ifs with h
      · rw [List.mem_append, List.mem_singleton]
        constructor
        · rintro (hf | rfl)
          · exact Or.inl hf
          · exact Or.inr ⟨rfl, h.1⟩
        · rintro (hf | ⟨rfl, _⟩)
          · exact Or.inl hf
          · exact Or.inr rfl
      · constructor
        · exact Or.inl
        · rintro (hf | ⟨rfl, hv⟩)
          · exact hf
          · rw [not_and_or] at h
            rcases h with h | h
            · exact absurd hv h
            · rw [not_lt] at h
              exact (FindCellIndex_neg_iff x fr).not_left.mp (by omega)
      
    rw [hstep]
    constructor
    · rintro ((hf | ⟨rfl, hv⟩) | ⟨hr, hv⟩)
      · exact Or.inl hf
      · exact Or.inr ⟨List.mem_cons_self _ _, hv⟩
      · exact Or.inr ⟨List.mem_cons_of_mem _ hr, hv⟩
    · rintro (hf | ⟨hm, hv⟩)
      · exact Or.inl (Or.inl hf)
      · rcases List.mem_cons.mp hm with rfl | hm2
        · exact Or.inl (Or.inr ⟨rfl, hv⟩)
        · exact Or.inr ⟨hm2, hv⟩

theorem primFold_nodup (side : ℕ) (visited1 : List Bool) (l fr : List Cell)
    (h : fr.Nodup) :
    (l.foldl
      (fun fr nb =>
        if jsGet visited1 (FindCellIndex nb (buildCells side)) = false ∧
            FindCellIndex nb fr < 0 then
          fr ++ [nb]
        else fr)
      fr).Nodup := by
  induction l generalizing fr with
  | nil => exact h
  | cons nb rest ih =>
    rw [List.foldl_cons]
    refine ih _ ?_
    split_ifs with hc
    · have hnm : nb ∉ fr := (FindCellIndex_neg_iff nb fr).mp hc.2
      rw [List.nodup_append]
      exact ⟨h, List.nodup_singleton nb, by
        intro a ha hb
        rw [List.mem_singleton] at hb
        subst hb
        exact hnm ha⟩
    · exact h

/-! ## One step of Prim's algorithm -/

theorem primStep_eq (side : ℕ) (rng : Rng) (s : PrimState) (rc rvn : Cell)
    (hrc : s.frontier.get? (rng s.t % s.frontier.length) = some rc)
    (hrvn : ((Neighbors side rc.1 rc.2).filter fun nb =>
        jsGet s.visited (FindCellIndex nb (buildCells side))).get?
        (rng (s.t + 1) % ((Neighbors side rc.1 rc.2).filter fun nb =>
          jsGet s.visited (FindCellIndex nb (buildCells side))).length) = some rvn) :
    primStep side rng s = some
      { visited := jsSet s.visited (FindCellIndex rc (buildCells side)) true
        frontier := (Neighbors side rc.1 rc.2).foldl
          (fun fr nb =>
            if jsGet (jsSet s.visited (FindCellIndex rc (buildCells side)) true)
                (FindCellIndex nb (buildCells side)) = false ∧
                FindCellIndex nb fr < 0 then fr ++ [nb] else fr)
          (s.frontier.eraseIdx (FindCellIndex rc s.frontier).toNat)
        borders := CutEdge rc rvn s.borders
        t := s.t + 2 } := by
  unfold primStep
  rw [hrc]
  simp only
  rw [hrvn]

theorem canonEdge_cases (a b : Cell) :
    canonEdge a b = (a, b) ∨ canonEdge a b = (b, a) := by
  unfold canonEdge
  split_ifs <;> simp

theorem primStep_spec (side : ℕ) (rng : Rng) (s : PrimState)
    (hinv : PrimInv side s) (hne : s.frontier ≠ []) :
    ∃ s', primStep side rng s = some s' ∧ PrimInv side s' ∧
      visCard side s'.visited = visCard side s.visited + 1 := by
  have hlen : 0 < s.frontier.length := List.length_pos.mpr hne
  obtain ⟨rc, hrc⟩ : ∃ rc, s.frontier.get? (rng s.t % s.frontier.length) = some rc :=
    ⟨_, List.get?_eq_get (Nat.mod_lt _ hlen)⟩
  have hrcmem : rc ∈ s.frontier := List.get?_mem hrc
  have hrcInB : inB side rc := hinv.fInB rc hrcmem
  have hrcUnvis := hinv.fUnvis rc hrcmem
  obtain ⟨nb0, hnb0N, hnb0V⟩ := hinv.fAdjVis rc hrcmem
  have hnb0mem : nb0 ∈ (Neighbors side rc.1 rc.2).filter fun nb =>
      jsGet s.visited (FindCellIndex nb (buildCells side)) := by
    rw [List.mem_filter]
    exact ⟨hnb0N, hnb0V⟩
  have hvlen : 0 < ((Neighbors side rc.1 rc.2).filter fun nb =>
      jsGet s.visited (FindCellIndex nb (buildCells side))).length :=
    List.length_pos.mpr (fun hE => by rw [hE] at hnb0mem; cases hnb0mem)
  obtain ⟨rvn, hrvn⟩ : ∃ rvn, ((Neighbors side rc.1 rc.2).filter fun nb =>
      jsGet s.visited (FindCellIndex nb (buildCells side))).get?
      (rng (s.t + 1) % ((Neighbors side rc.1 rc.2).filter fun nb =>
        jsGet s.visited (FindCellIndex nb (buildCells side))).length) = some rvn :=
    ⟨_, List.get?_eq_get (Nat.mod_lt _ hvlen)⟩
  have hrvnmem := List.get?_mem hrvn
  rw [List.mem_filter] at hrvnmem
  have hrvnN : rvn ∈ Neighbors side rc.1 rc.2 := hrvnmem.1
  have hrvnV : jsGet s.visited (cellIdx side rvn) = true := hrvnmem.2
  have hrvnInB : inB side rvn := Neighbors_inB side rc.1 rc.2 hrcInB rvn hrvnN
  have hadj : gridAdjacent rc rvn :=
    gridAdjacent_of_mem_Neighbors side rc.1 rc.2 rvn hrvnN
  have herase : s.frontier.eraseIdx (FindCellIndex rc s.frontier).toNat
      = s.frontier.erase rc := eraseIdx_FindCellIndex rc s.frontier hrcmem
  -- facts about the updated visited array
  have hvis1 : ∀ x : Cell, inB side x →
      (jsGet (jsSet s.visited (FindCellIndex rc (buildCells side)) true)
        (cellIdx side x) = true ↔
        jsGet s.visited (cellIdx side x) = true ∨ x = rc) :=
    fun x hx => jsGet_set_true_iff side s.visited rc x hrcInB hx hinv.vlen
  have hget_ne : ∀ x : Cell, inB side x → x ≠ rc →
      jsGet (jsSet s.visited (FindCellIndex rc (buildCells side)) true)
        (cellIdx side x) = jsGet s.visited (cellIdx side x) :=
    fun x hx hxne => jsGet_jsSet_ne s.visited _ _ true
      (fun h => hxne (cellIdx_inj side x rc hx hrcInB h.symm))
  have hrcV1 : jsGet (jsSet s.visited (FindCellIndex rc (buildCells side)) true)
      (cellIdx side rc) = true := (hvis1 rc hrcInB).mpr (Or.inr rfl)
  -- membership in the updated frontier
  have hfmem : ∀ x : Cell,
      (x ∈ (Neighbors side rc.1 rc.2).foldl
        (fun fr nb =>
          if jsGet (jsSet s.visited (FindCellIndex rc (buildCells side)) true)
              (FindCellIndex nb (buildCells side)) = false ∧
              FindCellIndex nb fr < 0 then fr ++ [nb] else fr)
        (s.frontier.eraseIdx (FindCellIndex rc s.frontier).toNat)) ↔
      x ∈ s.frontier.erase rc ∨ (x ∈ Neighbors side rc.1 rc.2 ∧
        jsGet (jsSet s.visited (FindCellIndex rc (buildCells side)) true)
          (cellIdx side x) = false) := by
    intro x
    rw [herase]
    exact primFold_mem side _ _ _ x
  have hOE : openEdges side (CutEdge rc rvn s.borders)
      = insert (canonEdge rc rvn) (openEdges side s.borders) :=
    openEdges_cutEdge side rc rvn s.borders hadj hrcInB hrvnInB
  have hcanon_not_mem : canonEdge rc rvn ∉ openEdges side s.borders := by
    intro hmem
    have hends := hinv.eSub _ hmem
    rcases canonEdge_cases rc rvn with hcc | hcc <;> rw [hcc] at hends
    · rw [hrcUnvis] at hends
      exact absurd hends.1 (by simp)
    · rw [hrcUnvis] at hends
      exact absurd hends.2 (by simp)
  refine ⟨_, primStep_eq side rng s rc rvn hrc hrvn, ?_, ?_⟩
  · constructor
    -- vlen
    · rw [jsSet_length]
      exact hinv.vlen
    -- fInB
    · intro c hc
      rcases (hfmem c).mp hc with h | ⟨hN, _⟩
      · exact hinv.fInB c ((List.Nodup.mem_erase_iff hinv.fNodup).mp h).2
      · exact Neighbors_inB side rc.1 rc.2 hrcInB c hN
    -- fUnvis
    · intro c hc
      rcases (hfmem c).mp hc with h | ⟨_, hU⟩
      · obtain ⟨hcne, hcmem⟩ := (List.Nodup.mem_erase_iff hinv.fNodup).mp h
        rw [hget_ne c (hinv.fInB c hcmem) hcne]
        exact hinv.fUnvis c hcmem
      · exact hU
    -- fNodup
    · rw [herase]
      exact primFold_nodup side _ _ _ (hinv.fNodup.erase rc)
    -- fAdjVis
    · intro c hc
      rcases (hfmem c).mp hc with h | ⟨hN, _⟩
      · obtain ⟨hcne, hcmem⟩ := (List.Nodup.mem_erase_iff hinv.fNodup).mp h
        obtain ⟨nb, hnbN, hnbV⟩ := hinv.fAdjVis c hcmem
        exact ⟨nb, hnbN, jsGet_jsSet_true_mono s.visited _ _ hnbV⟩
      · have hcInB : inB side c := Neighbors_inB side rc.1 rc.2 hrcInB c hN
        exact ⟨rc, Neighbors_symm side rc.1 rc.2 hrcInB c hN, hrcV1⟩
    -- fComplete
    · intro u hu huU hexv
      have hu_ne : u ≠ rc := by
        intro h
        rw [h, hrcV1] at huU
        exact absurd huU (by simp)
      have huU_old : jsGet s.visited (cellIdx side u) = false := by
        rw [← hget_ne u hu hu_ne]
        exact huU
      obtain ⟨v, hvN, hvV⟩ := hexv
      have hvInB : inB side v := Neighbors_inB side u.1 u.2 hu v hvN
      rcases (hvis1 v hvInB).mp hvV with hv_old | heq
      · have hmem := hinv.fComplete u hu huU_old ⟨v, hvN, hv_old⟩
        exact (hfmem u).mpr
          (Or.inl ((List.Nodup.mem_erase_iff hinv.fNodup).mpr ⟨hu_ne, hmem⟩))
      · rw [heq] at hvN
        have huN : u ∈ Neighbors side rc.1 rc.2 := Neighbors_symm side u.1 u.2 hu rc hvN
        exact (hfmem u).mpr (Or.inr ⟨huN, huU⟩)
    -- vConn
    · have hreach_rvn : ∀ z : Cell, inB side z →
          jsGet (jsSet s.visited (FindCellIndex rc (buildCells side)) true)
            (cellIdx side z) = true →
          Reach side (CutEdge rc rvn s.borders) z rvn := by
        intro z hz hzV
        rcases (hvis1 z hz).mp hzV with hold | heq
        · exact reach_mono_cut side rc rvn s.borders z rvn
            (hinv.vConn z rvn hz hrvnInB hold hrvnV)
        · rw [heq]
          exact reach_cut_new side rc rvn s.borders hadj hrcInB hrvnInB
      intro c c2 hcInB hc2InB hcV hc2V
      exact (hreach_rvn c hcInB hcV).trans
        (reach_symm side _ c2 rvn (hreach_rvn c2 hc2InB hc2V))
    -- eSub
    · intro e he
      rw [hOE, Finset.mem_insert] at he
      rcases he with rfl | he_old
      · rcases canonEdge_cases rc rvn with hcc | hcc <;> rw [hcc]
        · exact ⟨hrcV1, jsGet_jsSet_true_mono s.visited _ _ hrvnV⟩
        · exact ⟨jsGet_jsSet_true_mono s.visited _ _ hrvnV, hrcV1⟩
      · obtain ⟨h1, h2⟩ := hinv.eSub e he_old
        exact ⟨jsGet_jsSet_true_mono s.visited _ _ h1,
          jsGet_jsSet_true_mono s.visited _ _ h2⟩
    -- eCard
    · rw [hOE, Finset.card_insert_of_not_mem hcanon_not_mem]
      have hvc : visCard side (jsSet s.visited (FindCellIndex rc (buildCells side)) true)
          = visCard side s.visited + 1 :=
        visCard_set_true side s.visited rc hrcInB hinv.vlen hrcUnvis
      rw [hvc]
      have := hinv.eCard
      omega
  · exact visCard_set_true side s.visited rc hrcInB hinv.vlen hrcUnvis

/-! ## The Prim's loop -/

theorem visCard_replicate (side : ℕ) :
    visCard side (List.replicate (side * side) false) = 0 := by
  unfold visCard
  rw [Finset.card_eq_zero, Finset.filter_eq_empty_iff]
  intro c _
  rw [jsGet_replicate]
  simp

theorem primInit_inv (side : ℕ) (rng : Rng) (hside : 1 ≤ side) :
    PrimInv side (primInit side rng) := by
  have hstartInB : inB side (rng 0 % side, rng 1 % side) :=
    ⟨Nat.mod_lt _ (by omega), Nat.mod_lt _ (by omega)⟩
  have hvlen0 : (List.replicate (side * side) false).length = side * side := by
    simp
  have hchar : ∀ x : Cell, inB side x →
      (jsGet (jsSet (List.replicate (side * side) false)
        (FindCellIndex (rng 0 % side, rng 1 % side) (buildCells side)) true)
        (cellIdx side x) = true ↔ x = (rng 0 % side, rng 1 % side)) := by
    intro x hx
    have := jsGet_set_true_iff side (List.replicate (side * side) false)
      (rng 0 % side, rng 1 % side) x hstartInB hx hvlen0
    rw [jsGet_replicate] at this
    simpa using this
  unfold primInit
  simp only
  constructor
  case vlen =>
    simp only
    rw [jsSet_length]
    simp
  case fInB =>
    intro c hc
    exact Neighbors_inB side _ _ hstartInB c hc
  case fUnvis =>
    intro c hc
    simp only at hc ⊢
    have hcInB : inB side c := Neighbors_inB side _ _ hstartInB c hc
    have hcne : c ≠ (rng 0 % side, rng 1 % side) := by
      intro h
      rw [h] at hc
      exact Neighbors_self_not_mem side _ _ hc
    cases h : jsGet (jsSet (List.replicate (side * side) false)
        (FindCellIndex (rng 0 % side, rng 1 % side) (buildCells side)) true)
        (cellIdx side c)
    · rfl
    · exact absurd ((hchar c hcInB).mp h) hcne
  case fNodup =>
    exact Neighbors_nodup side _ _
  case fAdjVis =>
    intro c hc
    simp only at hc ⊢
    have hcInB : inB side c := Neighbors_inB side _ _ hstartInB c hc
    exact ⟨(rng 0 % side, rng 1 % side), Neighbors_symm side _ _ hstartInB c hc,
      (hchar _ hstartInB).mpr rfl⟩
  case fComplete =>
    intro u hu huU hexv
    simp only at huU hexv ⊢
    obtain ⟨v, hvN, hvV⟩ := hexv
    have hvInB : inB side v := Neighbors_inB side u.1 u.2 hu v hvN
    have hveq : v = (rng 0 % side, rng 1 % side) := (hchar v hvInB).mp hvV
    rw [hveq] at hvN
    exact Neighbors_symm side u.1 u.2 hu _ hvN
  case vConn =>
    intro c c2 hcInB hc2InB hcV hc2V
    simp only at hcV hc2V ⊢
    rw [(hchar c hcInB).mp hcV, (hchar c2 hc2InB).mp hc2V]
    exact Relation.ReflTransGen.refl
  case eSub =>
    intro e he
    simp only at he
    rw [openEdges_nil] at he
    cases he
  case eCard =>
    simp only
    rw [openEdges_nil]
    have hvc : visCard side (jsSet (List.replicate (side * side) false)
        (FindCellIndex (rng 0 % side, rng 1 % side) (buildCells side)) true)
        = visCard side (List.replicate (side * side) false) + 1 :=
      visCard_set_true side _ _ hstartInB hvlen0 (jsGet_replicate _ _)
    rw [Finset.card_empty, hvc, visCard_replicate]

theorem primLoop_no_crash (side : ℕ) (rng : Rng) :
    ∀ (fuel : ℕ) (s : PrimState), PrimInv side s →
      primLoop side rng fuel s ≠ none := by
  intro fuel
  induction fuel with
  | zero =>
    intro s _
    simp [primLoop]
  | succ n ih =>
    intro s hinv
    rw [primLoop]
    cases hf : s.frontier with
    | nil => simp
    | cons c rest =>
      obtain ⟨s1, hstep, hinv1, _⟩ :=
        primStep_spec side rng s hinv (by rw [hf]; simp)
      rw [hstep]
      exact ih s1 hinv1

theorem primLoop_complete (side : ℕ) (rng : Rng) :
    ∀ (fuel : ℕ) (s : PrimState), PrimInv side s →
      side * side - visCard side s.visited ≤ fuel →
      ∃ s', primLoop side rng fuel s = some s' ∧ PrimInv side s' ∧
        s'.frontier = [] := by
  intro fuel
  induction fuel with
  | zero =>
    intro s hinv hbound
    have hfe : s.frontier = [] := by
      cases hf : s.frontier with
      | nil => rfl
      | cons c rest =>
        have hcmem : c ∈ s.frontier := by rw [hf]; exact List.mem_cons_self c rest
        have := visCard_lt_of_unvis side s.visited c (hinv.fInB c hcmem)
          (hinv.fUnvis c hcmem)
        omega
    exact ⟨s, by simp [primLoop], hinv, hfe⟩
  | succ n ih =>
    intro s hinv hbound
    rw [primLoop]
    cases hf : s.frontier with
    | nil => exact ⟨s, by simp, hinv, hf⟩
    | cons c rest =>
      obtain ⟨s1, hstep, hinv1, hvc⟩ :=
        primStep_spec side rng s hinv (by rw [hf]; simp)
      rw [hstep]
      exact ih s1 hinv1 (by omega)

theorem prim_spanning (side : ℕ) (rng : Rng) (hside : 1 ≤ side) :
    ∃ s', PrimsAlgorithm side rng = some s' ∧
      (openEdges side s'.borders).card + 1 = side * side ∧
      (∀ A B : Cell, inB side A → inB side B → Reach side s'.borders A B) := by
  obtain ⟨s', hrun, hinv, hfe⟩ := primLoop_complete side rng (side * side)
    (primInit side rng) (primInit_inv side rng hside) (by omega)
  have hallvis : ∀ c : Cell, inB side c →
      jsGet s'.visited (cellIdx side c) = true := by
    have h1 : 1 ≤ visCard side s'.visited := by
      have := hinv.eCard
      omega
    have h2 : 0 < ((gridFinset side).filter fun c =>
        jsGet s'.visited (cellIdx side c) = true).card := h1
    obtain ⟨c0, hc0⟩ := Finset.card_pos.mp h2
    rw [Finset.mem_filter, mem_gridFinset] at hc0
    refine grid_closure side (fun c => jsGet s'.visited (cellIdx side c) = true)
      ?_ c0 hc0.1 hc0.2
    intro a ha hav b hb
    have hbInB : inB side b := Neighbors_inB side a.1 a.2 ha b hb
    cases hbv : jsGet s'.visited (cellIdx side b) with
    | true => rfl
    | false =>
      have hmem : b ∈ s'.frontier := hinv.fComplete b hbInB hbv
        ⟨a, Neighbors_symm side a.1 a.2 ha b hb, hav⟩
      rw [hfe] at hmem
      cases hmem
  have hvcN : visCard side s'.visited = side * side :=
    visCard_eq_all side s'.visited hallvis
  refine ⟨s', hrun, by have := hinv.eCard; omega, ?_⟩
  intro A B hA hB
  exact hinv.vConn A B hA hB (hallvis A hA) (hallvis B hB)

/-! ## Claim C5: Prim's never lacks a visited neighbour -/

/-- **C5.** During every run of Prim's algorithm from a freshly
initialized grid, every cell removed from the frontier has at least one
visited grid-neighbour at the moment it is removed, so the selection of a
random visited neighbour never indexes into an empty list: the crash
(`none`), which is how the embedding renders the `NoVisitedNeighbor`
situation (JavaScript would pass `undefined` to `CutEdge` and throw), is
unreachable regardless of fuel and draws. -/
theorem prims_noVisitedNeighbor_unreachable (side : ℕ) (rng : Rng) (fuel : ℕ)
    (hside : 1 ≤ side) :
    primLoop side rng fuel (primInit side rng) ≠ none :=
  primLoop_no_crash side rng fuel (primInit side rng) (primInit_inv side rng hside)

/-- **C5 (witness).** No crash on a full 3×3 run with the all-zero draws. -/
theorem prims_noVisitedNeighbor_unreachable_witness :
    primLoop 3 (fun _ => 0) 9 (primInit 3 (fun _ => 0)) ≠ none :=
  prims_noVisitedNeighbor_unreachable 3 (fun _ => 0) 9 (by decide)

/-! ## The recursive backtracker -/

theorem gridAdjacent_symm (a b : Cell) (h : gridAdjacent a b) :
    gridAdjacent b a := by
  unfold gridAdjacent at h ⊢
  tauto

theorem rbStep_eq_push (side : ℕ) (rng : Rng) (s : RBState)
    (current : Cell) (rest : List Cell) (rn : Cell)
    (hpath : s.path = current :: rest)
    (hrn : ((Neighbors side current.1 current.2).filter fun nb =>
        jsGet s.visited (FindCellIndex nb (buildCells side)) = false).get?
        (rng s.t % ((Neighbors side current.1 current.2).filter fun nb =>
          jsGet s.visited (FindCellIndex nb (buildCells side)) = false).length)
        = some rn) :
    rbStep side rng s =
      { visited := jsSet s.visited (FindCellIndex rn (buildCells side)) true
        path := rn :: current :: rest
        borders := CutEdge rn current s.borders
        t := s.t + 1 } := by
  unfold rbStep
  rw [hpath]
  simp only
  rw [hrn]

theorem rbStep_eq_pop (side : ℕ) (rng : Rng) (s : RBState)
    (current : Cell) (rest : List Cell)
    (hpath : s.path = current :: rest)
    (hrn : ((Neighbors side current.1 current.2).filter fun nb =>
        jsGet s.visited (FindCellIndex nb (buildCells side)) = false).get?
        (rng s.t % ((Neighbors side current.1 current.2).filter fun nb =>
          jsGet s.visited (FindCellIndex nb (buildCells side)) = false).length)
        = none) :
    rbStep side rng s = { s with path := rest } := by
  unfold rbStep
  rw [hpath]
  simp only
  rw [hrn]

theorem rbStep_spec (side : ℕ) (rng : Rng) (s : RBState)
    (hinv : RBInv side s) (hne : s.path ≠ []) :
    RBInv side (rbStep side rng s) ∧
    2 * (side * side - visCard side (rbStep side rng s).visited) +
      (rbStep side rng s).path.length + 1
      = 2 * (side * side - visCard side s.visited) + s.path.length := by
  obtain ⟨current, rest, hpath⟩ : ∃ c r, s.path = c :: r := by
    cases hp : s.path with
    | nil => exact absurd hp hne
    | cons c r => exact ⟨c, r, rfl⟩
  have hcur_mem : current ∈ s.path := by
    rw [hpath]
    exact List.mem_cons_self _ _
  have hcurInB : inB side current := hinv.pInB current hcur_mem
  have hcurV : jsGet s.visited (cellIdx side current) = true :=
    hinv.pVis current hcur_mem
  cases hget : ((Neighbors side current.1 current.2).filter fun nb =>
      jsGet s.visited (FindCellIndex nb (buildCells side)) = false).get?
      (rng s.t % ((Neighbors side current.1 current.2).filter fun nb =>
        jsGet s.visited (FindCellIndex nb (buildCells side)) = false).length) with
  | none =>
    rw [rbStep_eq_pop side rng s current rest hpath hget]
    have hfilter_nil : ((Neighbors side current.1 current.2).filter fun nb =>
        jsGet s.visited (FindCellIndex nb (buildCells side)) = false) = [] := by
      rcases Nat.eq_zero_or_pos ((Neighbors side current.1 current.2).filter fun nb =>
          jsGet s.visited (FindCellIndex nb (buildCells side)) = false).length with h0 | hpos
      · exact List.length_eq_zero.mp h0
      · exfalso
        have hmod := Nat.mod_lt (rng s.t) hpos
        rw [List.get?_eq_none] at hget
        omega
    have hall_nb : ∀ nb ∈ Neighbors side current.1 current.2,
        jsGet s.visited (cellIdx side nb) = true := by
      intro nb hnb
      have h2 := List.filter_eq_nil_iff.mp hfilter_nil nb hnb
      simp only [decide_eq_true_eq] at h2
      cases h : jsGet s.visited (FindCellIndex nb (buildCells side)) with
      | false => exact absurd h h2
      | true => exact h
    refine ⟨?_, ?_⟩
    · constructor
      case vlen => exact hinv.vlen
      case pInB =>
        intro c hc
        exact hinv.pInB c (by rw [hpath]; exact List.mem_cons_of_mem _ hc)
      case pVis =>
        intro c hc
        exact hinv.pVis c (by rw [hpath]; exact List.mem_cons_of_mem _ hc)
      case pNodup => exact (hpath ▸ hinv.pNodup).of_cons
      case finished =>
        intro c hcInB hcV hcnp nb hnb
        by_cases hcc : c = current
        · rw [hcc] at hnb
          exact hall_nb nb hnb
        · refine hinv.finished c hcInB hcV ?_ nb hnb
          rw [hpath]
          intro hmem
          rcases List.mem_cons.mp hmem with h | h
          · exact hcc h
          · exact hcnp h
      case vConn => exact hinv.vConn
      case eSub => exact hinv.eSub
      case eCard => exact hinv.eCard
    · rw [hpath]
      simp only [List.length_cons]
      omega
  | some rn =>
    have hrnmem := List.get?_mem hget
    rw [List.mem_filter] at hrnmem
    have hrnN : rn ∈ Neighbors side current.1 current.2 := hrnmem.1
    have hrnU : jsGet s.visited (cellIdx side rn) = false := by
      have := hrnmem.2
      simpa using this
    have hrnInB : inB side rn := Neighbors_inB side current.1 current.2 hcurInB rn hrnN
    have hadj : gridAdjacent rn current :=
      gridAdjacent_symm current rn
        (gridAdjacent_of_mem_Neighbors side current.1 current.2 rn hrnN)
    rw [rbStep_eq_push side rng s current rest rn hpath hget]
    have hvis1 : ∀ x : Cell, inB side x →
        (jsGet (jsSet s.visited (FindCellIndex rn (buildCells side)) true)
          (cellIdx side x) = true ↔
          jsGet s.visited (cellIdx side x) = true ∨ x = rn) :=
      fun x hx => jsGet_set_true_iff side s.visited rn x hrnInB hx hinv.vlen
    have hrnV1 : jsGet (jsSet s.visited (FindCellIndex rn (buildCells side)) true)
        (cellIdx side rn) = true := (hvis1 rn hrnInB).mpr (Or.inr rfl)
    have hOE : openEdges side (CutEdge rn current s.borders)
        = insert (canonEdge rn current) (openEdges side s.borders) :=
      openEdges_cutEdge side rn current s.borders hadj hrnInB hcurInB
    have hcanon_not_mem : canonEdge rn current ∉ openEdges side s.borders := by
      intro hmem
      have hends := hinv.eSub _ hmem
      rcases canonEdge_cases rn current with hcc | hcc <;> rw [hcc] at hends
      · rw [hrnU] at hends
        exact absurd hends.1 (by simp)
      · rw [hrnU] at hends
        exact absurd hends.2 (by simp)
    have hvc : visCard side (jsSet s.visited (FindCellIndex rn (buildCells side)) true)
        = visCard side s.visited + 1 :=
      visCard_set_true side s.visited rn hrnInB hinv.vlen hrnU
    have hlt := visCard_lt_of_unvis side s.visited rn hrnInB hrnU
    have hrn_not_path : rn ∉ s.path := by
      intro hmem
      rw [hinv.pVis rn hmem] at hrnU
      exact absurd hrnU (by simp)
    refine ⟨?_, ?_⟩
    · constructor
      case vlen =>
        rw [jsSet_length]
        exact hinv.vlen
      case pInB =>
        intro c hc
        rcases List.mem_cons.mp hc with rfl | hc2
        · exact hrnInB
        · exact hinv.pInB c (hpath ▸ hc2)
      case pVis =>
        intro c hc
        rcases List.mem_cons.mp hc with rfl | hc2
        · exact hrnV1
        · exact jsGet_jsSet_true_mono s.visited _ _ (hinv.pVis c (hpath ▸ hc2))
      case pNodup =>
        rw [List.nodup_cons]
        exact ⟨by rw [← hpath]; exact hrn_not_path, hpath ▸ hinv.pNodup⟩
      case finished =>
        intro c hcInB hcV hcnp nb hnb
        have hc_ne_rn : c ≠ rn := by
          intro h
          exact hcnp (h ▸ List.mem_cons_self rn (current :: rest))
        have hcV_old : jsGet s.visited (cellIdx side c) = true := by
          rcases (hvis1 c hcInB).mp hcV with h | h
          · exact h
          · exact absurd h hc_ne_rn
        have hc_not_path : c ∉ s.path := by
          rw [hpath]
          intro hmem
          exact hcnp (List.mem_cons_of_mem rn hmem)
        exact jsGet_jsSet_true_mono s.visited _ _
          (hinv.finished c hcInB hcV_old hc_not_path nb hnb)
      case vConn =>
        have hreach_cur : ∀ z : Cell, inB side z →
            jsGet (jsSet s.visited (FindCellIndex rn (buildCells side)) true)
              (cellIdx side z) = true →
            Reach side (CutEdge rn current s.borders) z current := by
          intro z hz hzV
          rcases (hvis1 z hz).mp hzV with hold | heq
          · exact reach_mono_cut side rn current s.borders z current
              (hinv.vConn z current hz hcurInB hold hcurV)
          · rw [heq]
            exact reach_cut_new side rn current s.borders hadj hrnInB hcurInB
        intro c c2 hcInB hc2InB hcV hc2V
        exact (hreach_cur c hcInB hcV).trans
          (reach_symm side _ c2 current (hreach_cur c2 hc2InB hc2V))
      case eSub =>
        intro e he
        rw [hOE, Finset.mem_insert] at he
        rcases he with rfl | he_old
        · rcases canonEdge_cases rn current with hcc | hcc <;> rw [hcc]
          · exact ⟨hrnV1, jsGet_jsSet_true_mono s.visited _ _ hcurV⟩
          · exact ⟨jsGet_jsSet_true_mono s.visited _ _ hcurV, hrnV1⟩
        · obtain ⟨h1, h2⟩ := hinv.eSub e he_old
          exact ⟨jsGet_jsSet_true_mono s.visited _ _ h1,
            jsGet_jsSet_true_mono s.visited _ _ h2⟩
      case eCard =>
        rw [hOE, Finset.card_insert_of_not_mem hcanon_not_mem, hvc]
        have := hinv.eCard
        omega
    · rw [hvc, hpath]
      simp only [List.length_cons]
      omega

theorem rbInit_inv (side : ℕ) (rng : Rng) (hside : 1 ≤ side) :
    RBInv side (rbInit side rng) := by
  have hstartInB : inB side (rng 0 % side, rng 1 % side) :=
    ⟨Nat.mod_lt _ (by omega), Nat.mod_lt _ (by omega)⟩
  have hvlen0 : (List.replicate (side * side) false).length = side * side := by
    simp
  have hchar : ∀ x : Cell, inB side x →
      (jsGet (jsSet (List.replicate (side * side) false)
        (FindCellIndex (rng 0 % side, rng 1 % side) (buildCells side)) true)
        (cellIdx side x) = true ↔ x = (rng 0 % side, rng 1 % side)) := by
    intro x hx
    have := jsGet_set_true_iff side (List.replicate (side * side) false)
      (rng 0 % side, rng 1 % side) x hstartInB hx hvlen0
    rw [jsGet_replicate] at this
    simpa using this
  unfold rbInit
  simp only
  constructor
  case vlen =>
    rw [jsSet_length]
    simp
  case pInB =>
    intro c hc
    rw [List.mem_singleton] at hc
    rw [hc]
    exact hstartInB
  case pVis =>
    intro c hc
    rw [List.mem_singleton] at hc
    rw [hc]
    exact (hchar _ hstartInB).mpr rfl
  case pNodup => exact List.nodup_singleton _
  case finished =>
    intro c hcInB hcV hcnp nb hnb
    exfalso
    exact hcnp (by rw [(hchar c hcInB).mp hcV]; exact List.mem_singleton_self _)
  case vConn =>
    intro c c2 hcInB hc2InB hcV hc2V
    rw [(hchar c hcInB).mp hcV, (hchar c2 hc2InB).mp hc2V]
    exact Relation.ReflTransGen.refl
  case eSub =>
    intro e he
    rw [openEdges_nil] at he
    cases he
  case eCard =>
    rw [openEdges_nil]
    have hvc : visCard side (jsSet (List.replicate (side * side) false)
        (FindCellIndex (rng 0 % side, rng 1 % side) (buildCells side)) true)
        = visCard side (List.replicate (side * side) false) + 1 :=
      visCard_set_true side _ _ hstartInB hvlen0 (jsGet_replicate _ _)
    rw [Finset.card_empty, hvc, visCard_replicate]

theorem rbLoop_complete (side : ℕ) (rng : Rng) :
    ∀ (fuel : ℕ) (s : RBState), RBInv side s →
      2 * (side * side - visCard side s.visited) + s.path.length ≤ fuel →
      RBInv side (rbLoop side rng fuel s) ∧ (rbLoop side rng fuel s).path = [] := by
  intro fuel
  induction fuel with
  | zero =>
    intro s hinv hbound
    have : s.path = [] := List.length_eq_zero.mp (by omega)
    rw [rbLoop]
    exact ⟨hinv, this⟩
  | succ n ih =>
    intro s hinv hbound
    rw [rbLoop]
    cases hf : s.path with
    | nil => exact ⟨hinv, hf⟩
    | cons c rest =>
      have hne : s.path ≠ [] := by rw [hf]; simp
      obtain ⟨hinv1, hmeas⟩ := rbStep_spec side rng s hinv hne
      have hlen1 : 1 ≤ s.path.length := by rw [hf]; simp
      exact ih (rbStep side rng s) hinv1 (by omega)

theorem rb_spanning (side : ℕ) (rng : Rng) (hside : 1 ≤ side) :
    (openEdges side (RecursiveBacktrack side rng).borders).card + 1 = side * side ∧
    (∀ A B : Cell, inB side A → inB side B →
      Reach side (RecursiveBacktrack side rng).borders A B) := by
  have hinit := rbInit_inv side rng hside
  have hN : 0 < side * side := Nat.mul_pos (by omega) (by omega)
  have hRB : RecursiveBacktrack side rng
      = rbLoop side rng (2 * (side * side)) (rbInit side rng) := rfl
  rw [hRB]
  have hmeas : 2 * (side * side - visCard side (rbInit side rng).visited) +
      (rbInit side rng).path.length ≤ 2 * (side * side) := by
    have h1 : (rbInit side rng).path.length = 1 := by
      unfold rbInit
      simp
    have h2 : 1 ≤ visCard side (rbInit side rng).visited := by
      have := hinit.eCard
      omega
    generalize side * side = N at hN ⊢
    omega
  obtain ⟨hinv, hfe⟩ := rbLoop_complete side rng (2 * (side * side))
    (rbInit side rng) hinit hmeas
  have hallvis : ∀ c : Cell, inB side c →
      jsGet (rbLoop side rng (2 * (side * side)) (rbInit side rng)).visited
        (cellIdx side c) = true := by
    have h1 : 1 ≤ visCard side
        (rbLoop side rng (2 * (side * side)) (rbInit side rng)).visited := by
      have := hinv.eCard
      omega
    have h2 : 0 < ((gridFinset side).filter fun c =>
        jsGet (rbLoop side rng (2 * (side * side)) (rbInit side rng)).visited
          (cellIdx side c) = true).card := h1
    obtain ⟨c0, hc0⟩ := Finset.card_pos.mp h2
    rw [Finset.mem_filter, mem_gridFinset] at hc0
    refine grid_closure side
      (fun c => jsGet (rbLoop side rng (2 * (side * side)) (rbInit side rng)).visited
        (cellIdx side c) = true)
      ?_ c0 hc0.1 hc0.2
    intro a ha hav b hb
    refine hinv.finished a ha hav ?_ b hb
    rw [hfe]
    exact List.not_mem_nil a
  refine ⟨?_, ?_⟩
  · have hvcN : visCard side
        (rbLoop side rng (2 * (side * side)) (rbInit side rng)).visited = side * side :=
      visCard_eq_all side _ hallvis
    have := hinv.eCard
    omega
  · intro A B hA hB
    exact hinv.vConn A B hA hB (hallvis A hA) (hallvis B hB)

/-! ## Claim C10: the backtracker terminates within `2N` invocations -/

/-- **C10.** `RecursiveBacktrack` terminates on every grid for every draw
sequence: each invocation on a non-empty path either marks a previously
unvisited cell visited and grows the stack, or pops the stack, so the
measure `2·(unvisited cells) + stack length` decreases by one per
invocation; starting from one visited cell and a one-cell stack it is at
most `2N - 1`, so `2N` invocations always reach the empty stack. -/
theorem rb_terminates (side : ℕ) (rng : Rng) (hside : 1 ≤ side) :
    (RecursiveBacktrack side rng).path = [] ∧
    (∀ s : RBState, RBInv side s → s.path ≠ [] →
      2 * (side * side - visCard side (rbStep side rng s).visited) +
        (rbStep side rng s).path.length + 1
        = 2 * (side * side - visCard side s.visited) + s.path.length) := by
  constructor
  · have hinit := rbInit_inv side rng hside
    have hN : 0 < side * side := Nat.mul_pos (by omega) (by omega)
    refine (rbLoop_complete side rng (2 * (side * side)) (rbInit side rng) hinit ?_).2
    have h1 : (rbInit side rng).path.length = 1 := by
      unfold rbInit
      simp
    have h2 : 1 ≤ visCard side (rbInit side rng).visited := by
      have := hinit.eCard
      omega
    generalize side * side = N at hN ⊢
    omega
  · intro s hinv hne
    exact (rbStep_spec side rng s hinv hne).2

/-- **C10 (witness).** Termination on the 3×3 grid with all-zero draws:
the final path is empty, and the measure decrease instantiated at the
initial state. -/
theorem rb_terminates_witness :
    (RecursiveBacktrack 3 (fun _ => 0)).path = [] ∧
    (∀ s : RBState, RBInv 3 s → s.path ≠ [] →
      2 * (3 * 3 - visCard 3 (rbStep 3 (fun _ => 0) s).visited) +
        (rbStep 3 (fun _ => 0) s).path.length + 1
        = 2 * (3 * 3 - visCard 3 s.visited) + s.path.length) :=
  rb_terminates 3 (fun _ => 0) (by decide)

/-! ## Kruskal's algorithm: the `cellMap` -/

theorem mkCellMap_keys (l : List Cell) (i : ℕ) :
    (mkCellMap l i).map Prod.fst = l := by
  induction l generalizing i with
  | nil => rfl
  | cons a t ih =>
    unfold mkCellMap
    rw [List.map_cons, ih]

theorem mkCellMap_values (l : List Cell) (i : ℕ) :
    (mkCellMap l i).map Prod.snd = List.range' i l.length := by
  induction l generalizing i with
  | nil => rfl
  | cons a t ih =>
    unfold mkCellMap
    rw [List.map_cons, ih, List.length_cons, List.range'_succ]

theorem mkCellMap_lab (l : List Cell) (i : ℕ) (c : Cell) (hc : c ∈ l) :
    ∃ k, krLab (mkCellMap l i) c = some (i + k) ∧ l.get? k = some c := by
  induction l generalizing i with
  | nil => cases hc
  | cons a t ih =>
    by_cases hac : a = c
    · refine ⟨0, ?_, by rw [List.get?_cons_zero, hac]⟩
      unfold krLab mkCellMap
      rw [List.find?_cons_of_pos _ (by simp [hac])]
      simp
    · have hct : c ∈ t := by
        rcases List.mem_cons.mp hc with h | h
        · exact absurd h.symm hac
        · exact h
      obtain ⟨k, hk1, hk2⟩ := ih (i + 1) hct
      refine ⟨k + 1, ?_, by rw [List.get?_cons_succ]; exact hk2⟩
      unfold krLab mkCellMap
      rw [List.find?_cons_of_neg _ (by simp [hac])]
      unfold krLab at hk1
      rw [hk1]
      congr 1
      omega

theorem mkCellMap_lab_inj (l : List Cell) (i : ℕ)
    (c c2 : Cell) (hc : c ∈ l) (hc2 : c2 ∈ l)
    (h : krLab (mkCellMap l i) c = krLab (mkCellMap l i) c2) : c = c2 := by
  obtain ⟨k, hk1, hk2⟩ := mkCellMap_lab l i c hc
  obtain ⟨k2, hk21, hk22⟩ := mkCellMap_lab l i c2 hc2
  rw [hk1, hk21] at h
  have hkk : k = k2 := by
    have := Option.some.inj h
    omega
  rw [hkk] at hk2
  rw [hk2] at hk22
  exact Option.some.inj hk22

theorem krLab_isSome (m : List (Cell × ℕ)) (c : Cell)
    (h : c ∈ m.map Prod.fst) : ∃ p, m.find? (fun p => p.1 = c) = some p ∧ p.1 = c := by
  induction m with
  | nil => cases h
  | cons a t ih =>
    by_cases hac : a.1 = c
    · exact ⟨a, List.find?_cons_of_pos _ (by simp [hac]), hac⟩
    · have hct : c ∈ t.map Prod.fst := by
        rw [List.map_cons] at h
        rcases List.mem_cons.mp h with h2 | h2
        · exact absurd h2.symm hac
        · exact h2
      obtain ⟨p, hp1, hp2⟩ := ih hct
      exact ⟨p, by rw [List.find?_cons_of_neg _ (by simp [hac])]; exact hp1, hp2⟩

theorem krLab_relabel (m : List (Cell × ℕ)) (oldSet newSet : ℕ) (c : Cell) :
    krLab (m.map fun p => if p.2 = oldSet then (p.1, newSet) else p) c
      = (krLab m c).map fun v => if v = oldSet then newSet else v := by
  induction m with
  | nil => rfl
  | cons a t ih =>
    unfold krLab
    by_cases hac : a.1 = c
    · rw [List.map_cons, List.find?_cons_of_pos _ (by split_ifs <;> simp [hac]),
        List.find?_cons_of_pos _ (by simp [hac])]
      split_ifs with hv <;> simp [hv]
    · rw [List.map_cons, List.find?_cons_of_neg _ (by split_ifs <;> simp [hac]),
        List.find?_cons_of_neg _ (by simp [hac])]
      exact ih

theorem relabel_values (m : List (Cell × ℕ)) (oldSet newSet : ℕ) :
    ((m.map fun p => if p.2 = oldSet then (p.1, newSet) else p).map Prod.snd)
      = m.map fun p => if p.2 = oldSet then newSet else p.2 := by
  rw [List.map_map]
  congr 1
  funext p
  simp only [Function.comp_apply]
  split_ifs <;> rfl

theorem relabel_keys (m : List (Cell × ℕ)) (oldSet newSet : ℕ) :
    ((m.map fun p => if p.2 = oldSet then (p.1, newSet) else p).map Prod.fst)
      = m.map Prod.fst := by
  rw [List.map_map]
  congr 1
  funext p
  simp only [Function.comp_apply]
  split_ifs <;> rfl

theorem image_collapse (X : Finset ℕ) (s1 s2 : ℕ) (h1 : s1 ∈ X) (hne : s1 ≠ s2) :
    X.image (fun v => if v = s2 then s1 else v) = X.erase s2 := by
  ext y
  simp only [Finset.mem_image, Finset.mem_erase]
  constructor
  · rintro ⟨x, hx, hfx⟩
    split_ifs at hfx with hxs
    · rw [← hfx]
      exact ⟨hne, h1⟩
    · rw [← hfx]
      exact ⟨hxs, hx⟩
  · rintro ⟨hy2, hyX⟩
    exact ⟨y, hyX, if_neg hy2⟩

theorem toFinset_map_nat (l : List ℕ) (f : ℕ → ℕ) :
    (l.map f).toFinset = l.toFinset.image f := by
  induction l with
  | nil => rfl
  | cons a t ih =>
    rw [List.map_cons, List.toFinset_cons, List.toFinset_cons, Finset.image_insert, ih]

theorem labelCount_relabel (m : List (Cell × ℕ)) (oldSet newSet : ℕ)
    (hnew : newSet ∈ (m.map Prod.snd).toFinset) (hne : newSet ≠ oldSet)
    (hold : oldSet ∈ (m.map Prod.snd).toFinset) :
    labelCount (m.map fun p => if p.2 = oldSet then (p.1, newSet) else p)
      = labelCount m - 1 := by
  unfold labelCount
  rw [relabel_values]
  have hmap : (m.map fun p => if p.2 = oldSet then newSet else p.2)
      = (m.map Prod.snd).map fun v => if v = oldSet then newSet else v := by
    rw [List.map_map]
    rfl
  rw [hmap, toFinset_map_nat, image_collapse _ newSet oldSet hnew hne,
    Finset.card_erase_of_mem hold]

theorem filter_range_card (n : ℕ) :
    ((Finset.range n).filter fun y => y + 1 < n).card = n - 1 := by
  have h : ((Finset.range n).filter fun y => y + 1 < n) = Finset.range (n - 1) := by
    ext y
    simp only [Finset.mem_filter, Finset.mem_range]
    omega
  rw [h, Finset.card_range]

theorem length_GetAllEdges (side : ℕ) :
    (GetAllEdges side).length = 2 * side * (side - 1) := by
  unfold GetAllEdges
  rw [List.length_flatMap]
  simp only [Function.comp_def]
  have hrow : ∀ x : ℕ, (((List.range side).flatMap fun y =>
      (if x + 1 < side then [((x, y), (x + 1, y))] else []) ++
      (if y + 1 < side then [((x, y), (x, y + 1))] else [])).length)
      = (if x + 1 < side then side else 0) + (side - 1) := by
    intro x
    rw [List.length_flatMap]
    simp only [Function.comp_def]
    have hlen : ∀ y : ℕ, ((if x + 1 < side then [((x, y), (x + 1, y))] else []) ++
        (if y + 1 < side then [((x, y), (x, y + 1))] else [])).length
        = (if x + 1 < side then 1 else 0) + (if y + 1 < side then 1 else 0) := by
      intro y
      rw [List.length_append]
      split_ifs <;> simp
    have hmc : ((List.range side).map fun y =>
        ((if x + 1 < side then [((x, y), (x + 1, y))] else []) ++
        (if y + 1 < side then [((x, y), (x, y + 1))] else [])).length)
        = (List.range side).map fun y =>
          (if x + 1 < side then 1 else 0) + (if y + 1 < side then 1 else 0) :=
      List.map_congr_left fun y _ => hlen y
    rw [hmc]
    have h2 : ((List.range side).map fun y =>
        (if x + 1 < side then 1 else 0) + (if y + 1 < side then 1 else 0)).sum
        = ∑ y in Finset.range side,
            ((if x + 1 < side then 1 else 0) + (if y + 1 < side then 1 else 0)) := rfl
    rw [h2, Finset.sum_add_distrib, Finset.sum_const, Finset.card_range, smul_eq_mul]
    have h3 : ∑ y in Finset.range side, (if y + 1 < side then 1 else 0)
        = ((Finset.range side).filter fun y => y + 1 < side).card := by
      rw [Finset.card_filter]
    rw [h3, filter_range_card]
    split_ifs <;> ring
  have hmc2 : ((List.range side).map fun x => (((List.range side).flatMap fun y =>
      (if x + 1 < side then [((x, y), (x + 1, y))] else []) ++
      (if y + 1 < side then [((x, y), (x, y + 1))] else [])).length))
      = (List.range side).map fun x => (if x + 1 < side then side else 0) + (side - 1) :=
    List.map_congr_left fun x _ => hrow x
  rw [hmc2]
  have h2 : ((List.range side).map fun x =>
      (if x + 1 < side then side else 0) + (side - 1)).sum
      = ∑ x in Finset.range side, ((if x + 1 < side then side else 0) + (side - 1)) := rfl
  rw [h2, Finset.sum_add_distrib, Finset.sum_const, Finset.card_range, smul_eq_mul]
  have h3 : ∑ x in Finset.range side, (if x + 1 < side then side else 0)
      = side * ((Finset.range side).filter fun x => x + 1 < side).card := by
    rw [Finset.card_filter, Finset.mul_sum]
    congr 1
    funext x
    split_ifs <;> ring
  rw [h3, filter_range_card]
  cases side with
  | zero => rfl
  | succ n => simp; ring

theorem find?_key_eq (m : List (Cell × ℕ)) (c : Cell) (p : Cell × ℕ)
    (h : m.find? (fun q => q.1 = c) = some p) : p.1 = c := by
  have h2 := List.find?_some h
  simpa using h2

theorem find?_of_keys_nodup (m : List (Cell × ℕ)) (hm : (m.map Prod.fst).Nodup)
    (p : Cell × ℕ) (hp : p ∈ m) : m.find? (fun q => q.1 = p.1) = some p := by
  induction m with
  | nil => cases hp
  | cons a t ih =>
    rw [List.map_cons, List.nodup_cons] at hm
    rcases List.mem_cons.mp hp with heq | hpt
    · rw [heq]
      exact List.find?_cons_of_pos _ (by simp)
    · rw [List.find?_cons_of_neg, ih hm.2 hpt]
      simp only [decide_eq_true_eq]
      intro h
      exact hm.1 (h ▸ List.mem_map_of_mem Prod.fst hpt)

theorem krStep_eq (side : ℕ) (rng : Rng) (s : KrState) (edge : Cell × Cell)
    (cell1 cell2 : Cell × ℕ)
    (hedge : s.edges.get? (rng s.t % s.edges.length) = some edge)
    (hf1 : s.cellMap.find? (fun c => c.1 = edge.1) = some cell1)
    (hf2 : s.cellMap.find? (fun c => c.1 = edge.2) = some cell2) :
    krStep side rng s =
      if cell1.2 ≠ cell2.2 then
        some { edges := s.edges.erase edge,
               cellMap := s.cellMap.map fun c =>
                 if c.2 = cell2.2 then (c.1, cell1.2) else c,
               borders := CutEdge cell1.1 cell2.1 s.borders, t := s.t + 1 }
      else some { s with edges := s.edges.erase edge, t := s.t + 1 } := by
  unfold krStep
  rw [hedge]
  dsimp only
  rw [hf1, hf2]

theorem krStep_spec (side : ℕ) (rng : Rng) (s : KrState)
    (hinv : KrInv side s) (hne : 0 < s.edges.length) :
    ∃ s1, krStep side rng s = some s1 ∧ KrInv side s1 ∧
      s1.edges.length = s.edges.length - 1 := by
  obtain ⟨edge, hedge⟩ : ∃ e, s.edges.get? (rng s.t % s.edges.length) = some e :=
    ⟨_, List.get?_eq_get (Nat.mod_lt _ hne)⟩
  have hedgemem : edge ∈ s.edges := List.get?_mem hedge
  have hpool : edge ∈ GetAllEdges side := hinv.poolSub hedgemem
  have hmga := (mem_GetAllEdges side edge).mp hpool
  have he1B : inB side edge.1 := hmga.1
  have he2B : inB side edge.2 := hmga.2.1
  have hadj : gridAdjacent edge.1 edge.2 :=
    GetAllEdges_endpoints_adjacent side edge hpool
  have hk1 : edge.1 ∈ s.cellMap.map Prod.fst := by
    rw [hinv.cmKeys]
    exact (mem_buildCells side edge.1).mpr he1B
  have hk2 : edge.2 ∈ s.cellMap.map Prod.fst := by
    rw [hinv.cmKeys]
    exact (mem_buildCells side edge.2).mpr he2B
  obtain ⟨cell1, hf1, hc1k⟩ := krLab_isSome s.cellMap edge.1 hk1
  obtain ⟨cell2, hf2, hc2k⟩ := krLab_isSome s.cellMap edge.2 hk2
  have hL1 : krLab s.cellMap edge.1 = some cell1.2 := by
    unfold krLab
    rw [hf1]
    rfl
  have hL2 : krLab s.cellMap edge.2 = some cell2.2 := by
    unfold krLab
    rw [hf2]
    rfl
  have hcell1mem : cell1 ∈ s.cellMap := List.mem_of_find?_eq_some hf1
  have hcell2mem : cell2 ∈ s.cellMap := List.mem_of_find?_eq_some hf2
  have hlenE : (s.edges.erase edge).length = s.edges.length - 1 :=
    List.length_erase_of_mem hedgemem
  have hlabnew : ∀ c : Cell, inB side c → ∃ v, krLab s.cellMap c = some v := by
    intro c hc
    obtain ⟨p, hp, _⟩ := krLab_isSome s.cellMap c
      (by rw [hinv.cmKeys]; exact (mem_buildCells side c).mpr hc)
    refine ⟨p.2, ?_⟩
    unfold krLab
    rw [hp]
    rfl
  have hstep := krStep_eq side rng s edge cell1 cell2 hedge hf1 hf2
  by_cases hlab : cell1.2 = cell2.2
  · rw [if_neg (not_not_intro hlab)] at hstep
    refine ⟨_, hstep, ?_, hlenE⟩
    constructor
    · exact hinv.cmKeys
    · exact hinv.labReach
    · exact hinv.openLab
    · exact hinv.eCard
    · intro e he
      exact hinv.poolSub (List.mem_of_mem_erase he)
    · intro e he
      rcases hinv.poolComplete e he with hmem | hl
      · by_cases heq : e = edge
        · right
          rw [heq, hL1, hL2, hlab]
        · exact Or.inl ((List.mem_erase_of_ne heq).mpr hmem)
      · exact Or.inr hl
  · rw [if_pos hlab, hc1k, hc2k] at hstep
    have hrel : ∀ c : Cell, krLab (s.cellMap.map fun p =>
        if p.2 = cell2.2 then (p.1, cell1.2) else p) c
        = (krLab s.cellMap c).map fun v => if v = cell2.2 then cell1.2 else v :=
      fun c => krLab_relabel s.cellMap cell2.2 cell1.2 c
    have hL1n : krLab (s.cellMap.map fun p =>
        if p.2 = cell2.2 then (p.1, cell1.2) else p) edge.1 = some cell1.2 := by
      rw [hrel, hL1]
      simp
    have hL2n : krLab (s.cellMap.map fun p =>
        if p.2 = cell2.2 then (p.1, cell1.2) else p) edge.2 = some cell1.2 := by
      rw [hrel, hL2]
      simp
    have hcanonNot : canonEdge edge.1 edge.2 ∉ openEdges side s.borders := by
      intro hmem
      have hol := hinv.openLab _ hmem
      rcases canonEdge_cases edge.1 edge.2 with hcc | hcc <;>
        rw [hcc] at hol <;> dsimp only at hol
      · rw [hL1, hL2] at hol
        exact hlab (Option.some.inj hol)
      · rw [hL2, hL1] at hol
        exact hlab (Option.some.inj hol).symm
    have hOE : openEdges side (CutEdge edge.1 edge.2 s.borders)
        = insert (canonEdge edge.1 edge.2) (openEdges side s.borders) :=
      openEdges_cutEdge side edge.1 edge.2 s.borders hadj he1B he2B
    have hcard : (openEdges side (CutEdge edge.1 edge.2 s.borders)).card
        = (openEdges side s.borders).card + 1 := by
      rw [hOE, Finset.card_insert_of_not_mem hcanonNot]
    have hvals1 : cell1.2 ∈ (s.cellMap.map Prod.snd).toFinset := by
      rw [List.mem_toFinset]
      exact List.mem_map_of_mem Prod.snd hcell1mem
    have hvals2 : cell2.2 ∈ (s.cellMap.map Prod.snd).toFinset := by
      rw [List.mem_toFinset]
      exact List.mem_map_of_mem Prod.snd hcell2mem
    have hlc : labelCount (s.cellMap.map fun p =>
        if p.2 = cell2.2 then (p.1, cell1.2) else p)
        = labelCount s.cellMap - 1 :=
      labelCount_relabel s.cellMap cell2.2 cell1.2 hvals1 hlab hvals2
    have hlcpos : 0 < labelCount s.cellMap :=
      Finset.card_pos.mpr ⟨cell2.2, hvals2⟩
    refine ⟨_, hstep, ?_, hlenE⟩
    constructor
    · rw [relabel_keys]
      exact hinv.cmKeys
    · intro c c2 hcB hc2B hceq
      rw [hrel, hrel] at hceq
      obtain ⟨v, hv⟩ := hlabnew c hcB
      obtain ⟨v2, hv2⟩ := hlabnew c2 hc2B
      rw [hv, hv2] at hceq
      simp only [Option.map_some'] at hceq
      have hfeq : (if v = cell2.2 then cell1.2 else v)
          = (if v2 = cell2.2 then cell1.2 else v2) := Option.some.inj hceq
      by_cases hvv : v = v2
      · exact reach_mono_cut side edge.1 edge.2 s.borders c c2
          (hinv.labReach c c2 hcB hc2B (by rw [hv, hv2, hvv]))
      · split_ifs at hfeq with h1 h2 h2
        · exact absurd (h1.trans h2.symm) hvv
        · have hR1 : Reach side s.borders c edge.2 :=
            hinv.labReach c edge.2 hcB he2B (by rw [hv, hL2, h1])
          have hR2 : Reach side s.borders edge.1 c2 :=
            hinv.labReach edge.1 c2 he1B hc2B (by rw [hL1, hv2, hfeq])
          exact Relation.ReflTransGen.trans
            (reach_mono_cut side edge.1 edge.2 s.borders c edge.2 hR1)
            (Relation.ReflTransGen.trans
              (reach_symm side (CutEdge edge.1 edge.2 s.borders) edge.1 edge.2
                (reach_cut_new side edge.1 edge.2 s.borders hadj he1B he2B))
              (reach_mono_cut side edge.1 edge.2 s.borders edge.1 c2 hR2))
        · have hR1 : Reach side s.borders c edge.1 :=
            hinv.labReach c edge.1 hcB he1B (by rw [hv, hL1, hfeq])
          have hR2 : Reach side s.borders edge.2 c2 :=
            hinv.labReach edge.2 c2 he2B hc2B (by rw [hL2, hv2, h2])
          exact Relation.ReflTransGen.trans
            (reach_mono_cut side edge.1 edge.2 s.borders c edge.1 hR1)
            (Relation.ReflTransGen.trans
              (reach_cut_new side edge.1 edge.2 s.borders hadj he1B he2B)
              (reach_mono_cut side edge.1 edge.2 s.borders edge.2 c2 hR2))
        · exact absurd hfeq hvv
    · intro e he
      rw [hOE] at he
      rcases Finset.mem_insert.mp he with heq | hold
      · rw [heq]
        rcases canonEdge_cases edge.1 edge.2 with hcc | hcc <;>
          rw [hcc] <;> dsimp only <;> rw [hL1n, hL2n]
      · have hol := hinv.openLab e hold
        rw [hrel, hrel, hol]
    · rw [hcard, hlc]
      have he := hinv.eCard
      omega
    · intro e he
      exact hinv.poolSub (List.mem_of_mem_erase he)
    · intro e he
      rcases hinv.poolComplete e he with hmem | hl
      · by_cases heq : e = edge
        · right
          rw [heq, hrel, hrel, hL1, hL2]
          simp
        · exact Or.inl ((List.mem_erase_of_ne heq).mpr hmem)
      · right
        rw [hrel, hrel, hl]

theorem labelCount_mkCellMap (side : ℕ) :
    labelCount (mkCellMap (buildCells side) 0) = side * side := by
  unfold labelCount
  rw [mkCellMap_values, List.toFinset_card_of_nodup (List.nodup_range' _ _),
    List.length_range', length_buildCells]

theorem krInit_inv (side : ℕ) : KrInv side (krInit side) := by
  unfold krInit
  constructor
  · exact mkCellMap_keys (buildCells side) 0
  · intro c c2 hcB hc2B hceq
    have hcc : c = c2 := mkCellMap_lab_inj (buildCells side) 0 c c2
      ((mem_buildCells side c).mpr hcB) ((mem_buildCells side c2).mpr hc2B) hceq
    rw [hcc]
    exact Relation.ReflTransGen.refl
  · intro e he
    rw [openEdges_nil] at he
    exact absurd he (Finset.not_mem_empty e)
  · rw [openEdges_nil, Finset.card_empty, labelCount_mkCellMap]
    omega
  · intro e he
    exact he
  · intro e he
    exact Or.inl he

theorem krLoop_complete (side : ℕ) (rng : Rng) :
    ∀ fuel (s : KrState), KrInv side s → 0 < s.edges.length →
      s.edges.length ≤ fuel →
      ∃ sF, krLoop side rng fuel s = some sF ∧ KrInv side sF ∧ sF.edges = [] := by
  intro fuel
  induction fuel with
  | zero =>
    intro s _ hpos hle
    omega
  | succ n ih =>
    intro s hinv hpos hle
    obtain ⟨s1, hs1, hinv1, hlen1⟩ := krStep_spec side rng s hinv hpos
    unfold krLoop
    rw [hs1]
    dsimp only
    by_cases hp : 0 < s1.edges.length
    · rw [if_pos hp]
      exact ih s1 hinv1 hp (by omega)
    · rw [if_neg hp]
      exact ⟨s1, rfl, hinv1, List.length_eq_zero.mp (by omega)⟩

theorem kr_spanning (side : ℕ) (rng : Rng) (h2 : 2 ≤ side) :
    ∃ sF, Kruskals side rng = some sF ∧
      (openEdges side sF.borders).card + 1 = side * side ∧
      ∀ a b : Cell, inB side a → inB side b → Reach side sF.borders a b := by
  have hinit := krInit_inv side
  have hlen : (krInit side).edges.length = 2 * side * (side - 1) :=
    length_GetAllEdges side
  have hpos : 0 < (krInit side).edges.length := by
    rw [hlen]
    have h1 : 1 ≤ side - 1 := by omega
    calc 0 < 2 * 2 * 1 := by norm_num
      _ ≤ 2 * side * (side - 1) :=
        Nat.mul_le_mul (Nat.mul_le_mul (le_refl 2) h2) h1
  obtain ⟨sF, hrun, hinvF, hemp⟩ := krLoop_complete side rng
    (2 * side * (side - 1)) (krInit side) hinit hpos (le_of_eq hlen)
  have hkeysNodup : (sF.cellMap.map Prod.fst).Nodup := by
    rw [hinvF.cmKeys]
    exact buildCells_nodup side
  have h00B : inB side ((0, 0) : Cell) := ⟨by omega, by omega⟩
  have halllab : ∀ c : Cell, inB side c →
      krLab sF.cellMap c = krLab sF.cellMap (0, 0) := by
    apply grid_closure side
      (fun c => krLab sF.cellMap c = krLab sF.cellMap (0, 0)) ?_ (0, 0) h00B rfl
    intro a haB hPa b hbN
    have hbB : inB side b := Neighbors_inB side a.1 a.2 haB b hbN
    have hadj : gridAdjacent a b :=
      gridAdjacent_of_mem_Neighbors side a.1 a.2 b hbN
    have hcanon := canonEdge_mem_GetAllEdges side a b hadj haB hbB
    rcases hinvF.poolComplete _ hcanon with hmem | hl
    · rw [hemp] at hmem
      exact absurd hmem (List.not_mem_nil _)
    · rcases canonEdge_cases a b with hcc | hcc <;> rw [hcc] at hl <;>
        dsimp only at hl
      · rw [← hl]
        exact hPa
      · rw [hl]
        exact hPa
  obtain ⟨p0, hp0, hp0k⟩ := krLab_isSome sF.cellMap ((0, 0) : Cell)
    (by rw [hinvF.cmKeys]; exact (mem_buildCells side _).mpr h00B)
  have hL0 : krLab sF.cellMap ((0, 0) : Cell) = some p0.2 := by
    unfold krLab
    rw [hp0]
    rfl
  have hvalsF : (sF.cellMap.map Prod.snd).toFinset = {p0.2} := by
    ext w
    simp only [List.mem_toFinset, Finset.mem_singleton]
    constructor
    · intro hw
      obtain ⟨p, hpmem, hpw⟩ := List.mem_map.mp hw
      have hfp := find?_of_keys_nodup sF.cellMap hkeysNodup p hpmem
      have hpB : inB side p.1 := by
        refine (mem_buildCells side p.1).mp ?_
        rw [← hinvF.cmKeys]
        exact List.mem_map_of_mem Prod.fst hpmem
      have hlp : krLab sF.cellMap p.1 = some p.2 := by
        unfold krLab
        rw [hfp]
        rfl
      have := halllab p.1 hpB
      rw [hlp, hL0] at this
      rw [← hpw]
      exact Option.some.inj this
    · intro hw
      rw [hw]
      exact List.mem_map.mpr ⟨p0, List.mem_of_find?_eq_some hp0, rfl⟩
  have hlc1 : labelCount sF.cellMap = 1 := by
    unfold labelCount
    rw [hvalsF, Finset.card_singleton]
  refine ⟨sF, hrun, ?_, ?_⟩
  · have hec := hinvF.eCard
    rw [hlc1] at hec
    exact hec
  · intro a b haB hbB
    refine hinvF.labReach a b haB hbB ?_
    rw [halllab a haB, halllab b hbB]

/-- C1: on every supported grid (all supported sides are at least 3, and
any side of at least 2 is covered here) and for every draw stream, each
of the three generators — Prim's, Kruskal's, and the Recursive
Backtracker — runs to completion and leaves a passage state whose open
passages number exactly `side * side - 1` and connect every pair of
in-bounds cells: the passage graph is a spanning tree. -/
theorem generators_spanning_tree (side : ℕ) (rng : Rng) (hside : 2 ≤ side) :
    (∃ sP, PrimsAlgorithm side rng = some sP ∧
      (openEdges side sP.borders).card + 1 = side * side ∧
      ∀ A B : Cell, inB side A → inB side B → Reach side sP.borders A B) ∧
    (∃ sK, Kruskals side rng = some sK ∧
      (openEdges side sK.borders).card + 1 = side * side ∧
      ∀ A B : Cell, inB side A → inB side B → Reach side sK.borders A B) ∧
    ((openEdges side (RecursiveBacktrack side rng).borders).card + 1 = side * side ∧
      ∀ A B : Cell, inB side A → inB side B →
        Reach side (RecursiveBacktrack side rng).borders A B) :=
  ⟨prim_spanning side rng (by omega), kr_spanning side rng hside,
    rb_spanning side rng (by omega)⟩

/-- Witness for C1 at `side = 3` with the all-zeros draw stream. -/
theorem generators_spanning_tree_witness :
    (2 ≤ 3) ∧
    ((∃ sP, PrimsAlgorithm 3 (fun _ => 0) = some sP ∧
      (openEdges 3 sP.borders).card + 1 = 3 * 3 ∧
      ∀ A B : Cell, inB 3 A → inB 3 B → Reach 3 sP.borders A B) ∧
    (∃ sK, Kruskals 3 (fun _ => 0) = some sK ∧
      (openEdges 3 sK.borders).card + 1 = 3 * 3 ∧
      ∀ A B : Cell, inB 3 A → inB 3 B → Reach 3 sK.borders A B) ∧
    ((openEdges 3 (RecursiveBacktrack 3 (fun _ => 0)).borders).card + 1 = 3 * 3 ∧
      ∀ A B : Cell, inB 3 A → inB 3 B →
        Reach 3 (RecursiveBacktrack 3 (fun _ => 0)).borders A B)) :=
  ⟨by omega, generators_spanning_tree 3 (fun _ => 0) (by omega)⟩

/-! ## BFS layering: dequeue/enqueue discipline -/

theorem dijkFold_queue (depth : ℕ) (cells : List Cell) :
    ∀ (l : List Cell) (st : DijkState),
      ∃ p : List (Cell × ℕ),
        (l.foldl (fun st nb =>
          let nIdx := FindCellIndex nb cells
          if jsGet st.visited nIdx = false then
            { st with
              queue := st.queue ++ [(nb, depth + 1)]
              depthMap := mapSet st.depthMap nIdx (depth + 1)
              overwrote := st.overwrote || (mapGet st.depthMap nIdx).isSome
              writes := st.writes ++ [(nIdx, depth + 1, depth)] }
          else st) st).queue = st.queue ++ p := by
  intro l
  induction l with
  | nil =>
    intro st
    exact ⟨[], by simp⟩
  | cons a t ih =>
    intro st
    rw [List.foldl_cons]
    by_cases h : jsGet st.visited (FindCellIndex a cells) = false
    · obtain ⟨p, hp⟩ := ih { st with
        queue := st.queue ++ [(a, depth + 1)]
        depthMap := mapSet st.depthMap (FindCellIndex a cells) (depth + 1)
        overwrote := st.overwrote ||
          (mapGet st.depthMap (FindCellIndex a cells)).isSome
        writes := st.writes ++ [(FindCellIndex a cells, depth + 1, depth)] }
      refine ⟨(a, depth + 1) :: p, ?_⟩
      simp only [if_pos h] at *
      rw [hp]
      simp
    · obtain ⟨p, hp⟩ := ih st
      refine ⟨p, ?_⟩
      simp only [if_neg h] at *
      exact hp

/-- C3 counterexample: on a genuine generated maze (`side = 3`, Recursive
Backtracker under the all-zeros draw stream), the BFS layering phase
records depth 4 — not 0 — at the entrance cell `(2, 2)` (index 8), records
depth 0 at the exit cell `(0, 0)` (index 0), and its initial queue holds
the exit cell, not the entrance: the claimed starting corner is wrong. -/
theorem dijkstras_entrance_start_counterexample :
    mapGet (DijkstrasPhase1 3
      (RecursiveBacktrack 3 (fun _ => 0)).borders).depthMap 8 = some 4 ∧
    mapGet (DijkstrasPhase1 3
      (RecursiveBacktrack 3 (fun _ => 0)).borders).depthMap 0 = some 0 ∧
    (dijkInit 3).queue = [(((0, 0) : Cell), 0)] ∧
    (((0, 0) : Cell) ≠ ((3 - 1, 3 - 1) : Cell)) := by
  refine ⟨by decide, by decide, rfl, by decide⟩

/-- C3 (amended): the BFS layering of `Dijkstras` starts from the exit
cell `(0, 0)` at depth 0 (not from the entrance), explores in FIFO order
(the head is dequeued, discoveries are appended at the tail), and
terminates early exactly when the entrance cell `(side-1, side-1)` is
dequeued for processing — not when it is first discovered. -/
theorem dijkstras_bfs_exit_start (side : ℕ) (bs : BorderState) (s : DijkState)
    (c : Cell × ℕ) (rest : List (Cell × ℕ)) (hq : s.queue = c :: rest) :
    ((dijkInit side).queue = [(((0, 0) : Cell), 0)] ∧
      mapGet (dijkInit side).depthMap 0 = some 0) ∧
    (c.1 = ((side - 1, side - 1) : Cell) →
      dijkStep side bs s = DijkRes.done
        { s with
          queue := rest
          visited := jsSet s.visited (FindCellIndex c.1 (buildCells side)) true }) ∧
    (c.1 ≠ ((side - 1, side - 1) : Cell) →
      ∃ s1 pushed, dijkStep side bs s = DijkRes.next s1 ∧
        s1.queue = rest ++ pushed) := by
  refine ⟨⟨rfl, rfl⟩, ?_, ?_⟩
  · intro h
    have h1 : c.1.1 = side - 1 := by rw [h]
    have h2 : c.1.2 = side - 1 := by rw [h]
    unfold dijkStep
    rw [hq]
    dsimp only
    rw [if_pos ⟨h1, h2⟩]
  · intro h
    have hcond : ¬(c.1.1 = side - 1 ∧ c.1.2 = side - 1) := by
      rintro ⟨h1, h2⟩
      exact h (Prod.ext h1 h2)
    unfold dijkStep
    rw [hq]
    dsimp only
    rw [if_neg hcond]
    obtain ⟨p, hp⟩ := dijkFold_queue
      ((mapGet s.depthMap (FindCellIndex c.1 (buildCells side))).getD 0)
      (buildCells side) (ConnectedNeighbors side bs c.1.1 c.1.2)
      { s with
        queue := rest
        visited := jsSet s.visited (FindCellIndex c.1 (buildCells side)) true }
    exact ⟨_, p, rfl, hp⟩

/-- Witness for C3 (amended) at `side = 3`, `bs = []`, on the initial
state, whose queue head is the exit cell. -/
theorem dijkstras_bfs_exit_start_witness :
    (dijkInit 3).queue = (((0, 0) : Cell), 0) :: [] ∧
    (((dijkInit 3).queue = [(((0, 0) : Cell), 0)] ∧
      mapGet (dijkInit 3).depthMap 0 = some 0) ∧
    ((((0, 0) : Cell), 0).1 = ((3 - 1, 3 - 1) : Cell) →
      dijkStep 3 [] (dijkInit 3) = DijkRes.done
        { dijkInit 3 with
          queue := []
          visited := jsSet (dijkInit 3).visited
            (FindCellIndex (((0, 0) : Cell), 0).1 (buildCells 3)) true }) ∧
    ((((0, 0) : Cell), 0).1 ≠ ((3 - 1, 3 - 1) : Cell) →
      ∃ s1 pushed, dijkStep 3 [] (dijkInit 3) = DijkRes.next s1 ∧
        s1.queue = [] ++ pushed)) :=
  ⟨rfl, dijkstras_bfs_exit_start 3 [] (dijkInit 3) (((0, 0) : Cell), 0) [] rfl⟩

/-! ## BFS layering on a forest: no depth is ever overwritten -/

theorem mapGet_mapSet_self (m : List (ℤ × ℕ)) (k : ℤ) (v : ℕ) :
    mapGet (mapSet m k v) k = some v := by
  unfold mapGet mapSet
  rw [List.find?_cons_of_pos _ (by simp)]
  rfl

theorem mapGet_mapSet_ne (m : List (ℤ × ℕ)) (k k' : ℤ) (v : ℕ) (h : k' ≠ k) :
    mapGet (mapSet m k v) k' = mapGet m k' := by
  unfold mapGet mapSet
  rw [List.find?_cons_of_neg _ (by simp [h.symm])]

theorem mem_discSet (side : ℕ) (dm : List (ℤ × ℕ)) (c : Cell) :
    c ∈ discSet side dm ↔
      inB side c ∧ (mapGet dm (cellIdx side c)).isSome = true := by
  unfold discSet
  rw [Finset.mem_filter, mem_gridFinset]

theorem canonEdge_open_of_mem_CN (side : ℕ) (bs : BorderState) (u nb : Cell)
    (hu : inB side u) (h : nb ∈ ConnectedNeighbors side bs u.1 u.2) :
    canonEdge u nb ∈ openEdges side bs := by
  have hnbN : nb ∈ Neighbors side u.1 u.2 := CN_subset_Neighbors side bs u.1 u.2 nb h
  have hadj : gridAdjacent u nb := gridAdjacent_of_mem_Neighbors side u.1 u.2 nb hnbN
  have hnbB : inB side nb := Neighbors_inB side u.1 u.2 hu nb hnbN
  unfold openEdges
  rw [Finset.mem_filter, List.mem_toFinset]
  refine ⟨canonEdge_mem_GetAllEdges side u nb hadj hu hnbB, ?_⟩
  unfold edgeOpen
  rcases canonEdge_cases u nb with hcc | hcc <;> rw [hcc] <;> dsimp only <;>
    simp only [Bool.or_eq_true, decide_eq_true_eq]
  · exact Or.inl h
  · exact Or.inr h

theorem CN_self_ne (side : ℕ) (bs : BorderState) (u nb : Cell)
    (h : nb ∈ ConnectedNeighbors side bs u.1 u.2) : nb ≠ u := by
  intro heq
  have hnbN : nb ∈ Neighbors side u.1 u.2 := CN_subset_Neighbors side bs u.1 u.2 nb h
  rw [heq] at hnbN
  exact Neighbors_self_not_mem side u.1 u.2 hnbN

theorem openEdges_subset_all (side : ℕ) (bs : BorderState) (e : Cell × Cell)
    (h : e ∈ openEdges side bs) : e ∈ GetAllEdges side := by
  unfold openEdges at h
  rw [Finset.mem_filter, List.mem_toFinset] at h
  exact h.1

theorem isSome_mapGet_mapSet (m : List (ℤ × ℕ)) (k k' : ℤ) (v : ℕ)
    (h : (mapGet m k').isSome = true) :
    (mapGet (mapSet m k v) k').isSome = true := by
  by_cases hk : k' = k
  · rw [hk, mapGet_mapSet_self]
    rfl
  · rw [mapGet_mapSet_ne m k k' v hk]
    exact h


theorem discSet_mapSet_insert (side : ℕ) (dm : List (ℤ × ℕ)) (nb : Cell)
    (v : ℕ) (k : ℤ) (hnbB : inB side nb) (hk : k = cellIdx side nb) :
    discSet side (mapSet dm k v) = insert nb (discSet side dm) := by
  subst hk
  ext c
  rw [mem_discSet, Finset.mem_insert, mem_discSet]
  by_cases hcB : inB side c
  · by_cases hcnb : c = nb
    · rw [hcnb]
      simp only [true_or, iff_true]
      refine ⟨hnbB, ?_⟩
      rw [mapGet_mapSet_self]
      rfl
    · have hkne : cellIdx side c ≠ cellIdx side nb :=
        fun hh => hcnb (cellIdx_inj side c nb hcB hnbB hh)
      rw [mapGet_mapSet_ne dm _ _ _ hkne]
      constructor
      · exact fun hp => Or.inr hp
      · rintro (heq | hp)
        · exact absurd heq hcnb
        · exact hp
  · have hcnb : c ≠ nb := fun heq => hcB (heq ▸ hnbB)
    constructor
    · rintro ⟨hcB2, _⟩
      exact absurd hcB2 hcB
    · rintro (heq | ⟨hcB2, _⟩)
      · exact absurd heq hcnb
      · exact absurd hcB2 hcB

theorem dijkFold_inv (side : ℕ) (bs : BorderState) (hforest : isForest side bs)
    (u : Cell) (d : ℕ) :
    ∀ (l : List Cell) (st : DijkState) (T : Finset (Cell × Cell)),
      DFoldInv side bs u l st T →
      ∃ T1, DFoldInv side bs u [] (l.foldl (fun st nb =>
          let nIdx := FindCellIndex nb (buildCells side)
          if jsGet st.visited nIdx = false then
            { st with
              queue := st.queue ++ [(nb, d + 1)]
              depthMap := mapSet st.depthMap nIdx (d + 1)
              overwrote := st.overwrote || (mapGet st.depthMap nIdx).isSome
              writes := st.writes ++ [(nIdx, d + 1, d)] }
          else st) st) T1 := by
  intro l
  induction l with
  | nil =>
    intro st T h
    exact ⟨T, h⟩
  | cons nb t ih =>
    intro st T h
    rw [List.foldl_cons]
    have hCN : nb ∈ ConnectedNeighbors side bs u.1 u.2 :=
      h.lCN nb (List.mem_cons_self nb t)
    have hnbN : nb ∈ Neighbors side u.1 u.2 :=
      CN_subset_Neighbors side bs u.1 u.2 nb hCN
    have hnbB : inB side nb := Neighbors_inB side u.1 u.2 h.uInB nb hnbN
    have hne : nb ≠ u := CN_self_ne side bs u nb hCN
    have huDisc : (mapGet st.depthMap (cellIdx side u)).isSome = true :=
      (h.dmDisc u h.uInB).mpr (Or.inl h.uVis)
    by_cases hvis : jsGet st.visited (FindCellIndex nb (buildCells side)) = false
    · by_cases hdisc : (mapGet st.depthMap
          (FindCellIndex nb (buildCells side))).isSome = true
      · -- unvisited yet already discovered: impossible over a forest
        exfalso
        have huS : u ∈ discSet side st.depthMap :=
          (mem_discSet side st.depthMap u).mpr ⟨h.uInB, huDisc⟩
        have hnbS : nb ∈ discSet side st.depthMap :=
          (mem_discSet side st.depthMap nb).mpr ⟨hnbB, hdisc⟩
        have heOpen : canonEdge u nb ∈ openEdges side bs :=
          canonEdge_open_of_mem_CN side bs u nb h.uInB hCN
        by_cases heT : canonEdge u nb ∈ T
        · rcases canonEdge_cases u nb with hcc | hcc
          · exact h.tFresh _ heT nb (Or.inl ⟨by rw [hcc], by rw [hcc]⟩) hvis
              (List.mem_cons_self nb t)
          · exact h.tFresh _ heT nb (Or.inr ⟨by rw [hcc], by rw [hcc]⟩) hvis
              (List.mem_cons_self nb t)
        · have hsub : insert (canonEdge u nb) T ⊆
              (openEdges side bs).filter fun e' =>
                e'.1 ∈ discSet side st.depthMap ∧ e'.2 ∈ discSet side st.depthMap := by
            intro e' he'
            rw [Finset.mem_filter]
            rcases Finset.mem_insert.mp he' with heq | he'T
            · rw [heq]
              refine ⟨heOpen, ?_⟩
              rcases canonEdge_cases u nb with hcc | hcc <;> rw [hcc]
              · exact ⟨huS, hnbS⟩
              · exact ⟨hnbS, huS⟩
            · have hd := h.tDisc e' he'T
              have hga := (mem_GetAllEdges side e').mp
                (openEdges_subset_all side bs e' (h.tSub he'T))
              exact ⟨h.tSub he'T,
                (mem_discSet side st.depthMap e'.1).mpr ⟨hga.1, hd.1⟩,
                (mem_discSet side st.depthMap e'.2).mpr ⟨hga.2.1, hd.2⟩⟩
          have hcardle := Finset.card_le_card hsub
          have hforS := hforest (discSet side st.depthMap) ⟨u, huS⟩
          have hins : (insert (canonEdge u nb) T).card = T.card + 1 :=
            Finset.card_insert_of_not_mem heT
          have htc := h.tCard
          omega
      · -- fresh discovery: record the depth, extend the discovery tree
        simp only [if_pos hvis]
        have hdisc' : (mapGet st.depthMap
            (FindCellIndex nb (buildCells side))).isSome = false := by
          rw [← Bool.not_eq_true]
          exact hdisc
        have heOpen : canonEdge u nb ∈ openEdges side bs :=
          canonEdge_open_of_mem_CN side bs u nb h.uInB hCN
        have hnbNotQ : nb ∉ st.queue.map Prod.fst := fun hq =>
          hdisc ((h.dmDisc nb hnbB).mpr (Or.inr hq))
        have heNotT : canonEdge u nb ∉ T := by
          intro heT
          have hd := h.tDisc _ heT
          rcases canonEdge_cases u nb with hcc | hcc <;> rw [hcc] at hd <;>
            dsimp only at hd
          · exact hdisc hd.2
          · exact hdisc hd.1
        have hnbNotS : nb ∉ discSet side st.depthMap := fun hmem =>
          hdisc ((mem_discSet side st.depthMap nb).mp hmem).2
        refine ih _ (insert (canonEdge u nb) T) ?_
        constructor
        · exact (List.nodup_cons.mp h.lNodup).2
        · exact fun x hx => h.lCN x (List.mem_cons_of_mem nb hx)
        · exact h.uInB
        · exact h.uVis
        · exact h.vlen
        · dsimp only
          intro cp hcp
          rcases List.mem_append.mp hcp with h1 | h1
          · exact h.qInB cp h1
          · rw [List.mem_singleton] at h1
            rw [h1]
            exact hnbB
        · dsimp only
          intro cp hcp
          rcases List.mem_append.mp hcp with h1 | h1
          · exact h.qUnvis cp h1
          · rw [List.mem_singleton] at h1
            rw [h1]
            exact hvis
        · dsimp only
          rw [List.map_append]
          simp only [List.map_cons, List.map_nil]
          rw [List.nodup_append]
          refine ⟨h.qNodup, List.nodup_singleton nb, ?_⟩
          intro a ha hb
          rw [List.mem_singleton] at hb
          rw [hb] at ha
          exact hnbNotQ ha
        · dsimp only
          intro c hcB
          simp only [List.map_append, List.map_cons, List.map_nil, List.mem_append,
            List.mem_singleton]
          by_cases hcnb : c = nb
          · rw [hcnb]
            constructor
            · intro _
              exact Or.inr (Or.inr rfl)
            · intro _
              rw [show cellIdx side nb = FindCellIndex nb (buildCells side) from rfl,
                mapGet_mapSet_self]
              rfl
          · have hkne : cellIdx side c ≠ FindCellIndex nb (buildCells side) :=
              fun hh => hcnb (cellIdx_inj side c nb hcB hnbB hh)
            rw [mapGet_mapSet_ne st.depthMap _ _ _ hkne, h.dmDisc c hcB]
            simp only [hcnb, or_false]
        · dsimp only
          rw [h.ovf, hdisc']
          rfl
        · dsimp only
          intro w hw
          rcases List.mem_append.mp hw with h1 | h1
          · exact h.wOK w h1
          · rw [List.mem_singleton] at h1
            rw [h1]
        · exact Finset.insert_subset_iff.mpr ⟨heOpen, h.tSub⟩
        · dsimp only
          intro e' he'
          rcases Finset.mem_insert.mp he' with heq | he'T
          · rw [heq]
            rcases canonEdge_cases u nb with hcc | hcc <;> rw [hcc] <;> dsimp only
            · refine ⟨isSome_mapGet_mapSet st.depthMap _ _ _ huDisc, ?_⟩
              rw [show cellIdx side nb = FindCellIndex nb (buildCells side) from rfl,
                mapGet_mapSet_self]
              rfl
            · refine ⟨?_, isSome_mapGet_mapSet st.depthMap _ _ _ huDisc⟩
              rw [show cellIdx side nb = FindCellIndex nb (buildCells side) from rfl,
                mapGet_mapSet_self]
              rfl
          · have hd := h.tDisc e' he'T
            exact ⟨isSome_mapGet_mapSet st.depthMap _ _ _ hd.1,
              isSome_mapGet_mapSet st.depthMap _ _ _ hd.2⟩
        · dsimp only
          intro e' he'
          rcases Finset.mem_insert.mp he' with heq | he'T
          · rw [heq]
            rcases canonEdge_cases u nb with hcc | hcc <;> rw [hcc] <;> dsimp only
            · exact Or.inl h.uVis
            · exact Or.inr h.uVis
          · exact h.tVis e' he'T
        · dsimp only
          intro e' he' x hor hxv
          rcases Finset.mem_insert.mp he' with heq | he'T
          · rw [heq] at hor
            rcases canonEdge_cases u nb with hcc | hcc <;> rw [hcc] at hor <;>
              dsimp only at hor
            · rcases hor with ⟨_, h2⟩ | ⟨h1, _⟩
              · rw [← h2]
                exact (List.nodup_cons.mp h.lNodup).1
              · exact absurd h1 hne
            · rcases hor with ⟨h1, _⟩ | ⟨_, h2⟩
              · exact absurd h1 hne
              · rw [← h2]
                exact (List.nodup_cons.mp h.lNodup).1
          · exact fun hxt => h.tFresh e' he'T x hor hxv (List.mem_cons_of_mem nb hxt)
        · dsimp only
          rw [discSet_mapSet_insert side st.depthMap nb (d + 1)
              (FindCellIndex nb (buildCells side)) hnbB rfl,
            Finset.card_insert_of_not_mem heNotT,
            Finset.card_insert_of_not_mem hnbNotS]
          have htc := h.tCard
          omega
    · simp only [if_neg hvis]
      refine ih st T ?_
      constructor
      · exact (List.nodup_cons.mp h.lNodup).2
      · exact fun x hx => h.lCN x (List.mem_cons_of_mem nb hx)
      · exact h.uInB
      · exact h.uVis
      · exact h.vlen
      · exact h.qInB
      · exact h.qUnvis
      · exact h.qNodup
      · exact h.dmDisc
      · exact h.ovf
      · exact h.wOK
      · exact h.tSub
      · exact h.tDisc
      · exact h.tVis
      · exact fun e he x hor hxv hxt =>
          h.tFresh e he x hor hxv (List.mem_cons_of_mem nb hxt)
      · exact h.tCard

theorem dijkStep_inv (side : ℕ) (bs : BorderState) (hforest : isForest side bs)
    (s : DijkState) (hinv : DijkInv side bs s) :
    (∃ s1, dijkStep side bs s = DijkRes.done s1 ∧
      s1.overwrote = s.overwrote ∧ s1.writes = s.writes) ∨
    (∃ s1, dijkStep side bs s = DijkRes.next s1 ∧ DijkInv side bs s1) := by
  rcases hqe : s.queue with _ | ⟨c, rest⟩
  · left
    refine ⟨s, ?_, rfl, rfl⟩
    unfold dijkStep
    rw [hqe]
  · have hcq : c ∈ s.queue := by
      rw [hqe]
      exact List.mem_cons_self c rest
    have huB : inB side c.1 := hinv.qInB c hcq
    have huUnvis : jsGet s.visited (cellIdx side c.1) = false := hinv.qUnvis c hcq
    have huQ : c.1 ∈ s.queue.map Prod.fst := List.mem_map_of_mem Prod.fst hcq
    have huDisc : (mapGet s.depthMap (cellIdx side c.1)).isSome = true :=
      (hinv.dmDisc c.1 huB).mpr (Or.inr huQ)
    by_cases hent : c.1.1 = side - 1 ∧ c.1.2 = side - 1
    · left
      have hstep : dijkStep side bs s = DijkRes.done
          { s with
            queue := rest
            visited := jsSet s.visited (FindCellIndex c.1 (buildCells side)) true } := by
        unfold dijkStep
        rw [hqe]
        dsimp only
        rw [if_pos hent]
      exact ⟨_, hstep, rfl, rfl⟩
    · right
      obtain ⟨T, hTsub, hTdisc, hTvis, hTcard⟩ := hinv.tree
      have hvis1 : ∀ x : Cell, inB side x →
          (jsGet (jsSet s.visited (FindCellIndex c.1 (buildCells side)) true)
            (cellIdx side x) = true ↔
            jsGet s.visited (cellIdx side x) = true ∨ x = c.1) :=
        fun x hx => jsGet_set_true_iff side s.visited c.1 x huB hx hinv.vlen
    -- the fold start state satisfies the during-fold invariant
      have hstart : DFoldInv side bs c.1 (ConnectedNeighbors side bs c.1.1 c.1.2)
          ({ s with
            queue := rest
            visited := jsSet s.visited (FindCellIndex c.1 (buildCells side)) true })
          T := by
        have hrestQ : (rest.map Prod.fst).Nodup ∧ c.1 ∉ rest.map Prod.fst := by
          have hn := hinv.qNodup
          rw [hqe, List.map_cons, List.nodup_cons] at hn
          exact ⟨hn.2, hn.1⟩
        constructor
        · exact CN_nodup side bs c.1.1 c.1.2
        · exact fun nb hnb => hnb
        · exact huB
        · exact (hvis1 c.1 huB).mpr (Or.inr rfl)
        · dsimp only
          rw [jsSet_length]
          exact hinv.vlen
        · dsimp only
          intro cp hcp
          exact hinv.qInB cp (by rw [hqe]; exact List.mem_cons_of_mem c hcp)
        · dsimp only
          intro cp hcp
          have hcpB : inB side cp.1 :=
            hinv.qInB cp (by rw [hqe]; exact List.mem_cons_of_mem c hcp)
          have hcpne : cp.1 ≠ c.1 := by
            intro heq
            exact hrestQ.2 (heq ▸ List.mem_map_of_mem Prod.fst hcp)
          have hne2 : (FindCellIndex c.1 (buildCells side) : ℤ) ≠ cellIdx side cp.1 :=
            fun hh => hcpne (cellIdx_inj side cp.1 c.1 hcpB huB hh.symm)
          rw [jsGet_jsSet_ne s.visited _ _ true hne2]
          exact hinv.qUnvis cp (by rw [hqe]; exact List.mem_cons_of_mem c hcp)
        · exact hrestQ.1
        · dsimp only
          intro x hx
          have hd := hinv.dmDisc x hx
          rw [hqe, List.map_cons, List.mem_cons] at hd
          rw [hvis1 x hx, hd]
          by_cases hxc : x = c.1 <;> simp [hxc]
        · exact hinv.ovf
        · exact hinv.wOK
        · exact hTsub
        · exact hTdisc
        · dsimp only
          intro e he
          have hga := (mem_GetAllEdges side e).mp
            (openEdges_subset_all side bs e (hTsub he))
          rcases hTvis e he with hv | hv
          · exact Or.inl ((hvis1 e.1 hga.1).mpr (Or.inl hv))
          · exact Or.inr ((hvis1 e.2 hga.2.1).mpr (Or.inl hv))
        · dsimp only
          intro e he x hor hxv
          exfalso
          have hga := (mem_GetAllEdges side e).mp
            (openEdges_subset_all side bs e (hTsub he))
          rcases hor with ⟨h1, h2⟩ | ⟨h1, h2⟩
          · rcases hTvis e he with hv | hv
            · rw [h1] at hv
              rw [hv] at huUnvis
              exact absurd huUnvis (by simp)
            · have := (hvis1 e.2 hga.2.1).mpr (Or.inl hv)
              rw [h2] at this
              rw [this] at hxv
              exact absurd hxv (by simp)
          · rcases hTvis e he with hv | hv
            · have := (hvis1 e.1 hga.1).mpr (Or.inl hv)
              rw [h2] at this
              rw [this] at hxv
              exact absurd hxv (by simp)
            · rw [h1] at hv
              rw [hv] at huUnvis
              exact absurd huUnvis (by simp)
        · exact hTcard
      obtain ⟨T1, hf⟩ := dijkFold_inv side bs hforest c.1
        ((mapGet s.depthMap (FindCellIndex c.1 (buildCells side))).getD 0)
        (ConnectedNeighbors side bs c.1.1 c.1.2)
        ({ s with
          queue := rest
          visited := jsSet s.visited (FindCellIndex c.1 (buildCells side)) true })
        T hstart
      refine ⟨_, by unfold dijkStep; rw [hqe]; dsimp only; rw [if_neg hent], ?_⟩
      exact ⟨hf.vlen, hf.qInB, hf.qUnvis, hf.qNodup, hf.dmDisc, hf.ovf,
        hf.wOK, ⟨T1, hf.tSub, hf.tDisc, hf.tVis, hf.tCard⟩⟩

theorem mapGet_init (k : ℤ) :
    mapGet [((0 : ℤ), 0)] k = if k = 0 then some 0 else none := by
  unfold mapGet
  by_cases hk : k = 0
  · rw [hk]
    rfl
  · rw [List.find?_cons_of_neg _ (by simp only [decide_eq_true_eq]; exact fun h => hk h.symm),
      if_neg hk]
    rfl

theorem dijkInit_inv (side : ℕ) (bs : BorderState) (hside : 1 ≤ side) :
    DijkInv side bs (dijkInit side) := by
  have h00B : inB side ((0, 0) : Cell) := ⟨by omega, by omega⟩
  have hidx0 : cellIdx side ((0, 0) : Cell) = 0 := by
    rw [cellIdx_eq side 0 0 (by omega) (by omega)]
    norm_num
  have hDS0 : discSet side [((0 : ℤ), 0)] = {((0, 0) : Cell)} := by
    ext c
    rw [mem_discSet, Finset.mem_singleton]
    rw [mapGet_init]
    constructor
    · rintro ⟨hcB, hs⟩
      by_cases hk : cellIdx side c = 0
      · refine cellIdx_inj side c ((0, 0) : Cell) hcB h00B ?_
        rw [hk, hidx0]
      · rw [if_neg hk] at hs
        exact absurd hs (by simp)
    · intro hc
      rw [hc]
      exact ⟨h00B, by rw [if_pos hidx0]; rfl⟩
  unfold dijkInit
  constructor
  · exact List.length_replicate (side * side) false
  · dsimp only
    intro cp hcp
    rw [List.mem_singleton] at hcp
    rw [hcp]
    exact h00B
  · dsimp only
    intro cp hcp
    rw [List.mem_singleton] at hcp
    rw [hcp]
    exact jsGet_replicate (side * side) _
  · dsimp only
    simp only [List.map_cons, List.map_nil]
    exact List.nodup_singleton _
  · dsimp only
    intro c hcB
    rw [mapGet_init, jsGet_replicate]
    simp only [List.map_cons, List.map_nil, List.mem_singleton]
    by_cases hk : cellIdx side c = 0
    · rw [if_pos hk]
      have hc0 : c = ((0, 0) : Cell) := by
        refine cellIdx_inj side c ((0, 0) : Cell) hcB h00B ?_
        rw [hk, hidx0]
      simp [hc0]
    · rw [if_neg hk]
      have hc0 : c ≠ ((0, 0) : Cell) := by
        intro heq
        rw [heq, hidx0] at hk
        exact hk rfl
      simp only [Option.isSome_none, Bool.false_eq_true, false_iff, not_or]
      exact ⟨by simp, hc0⟩
  · rfl
  · dsimp only
    intro w hw
    exact absurd hw (List.not_mem_nil w)
  · refine ⟨∅, Finset.empty_subset _, ?_, ?_, ?_⟩
    · intro e he
      exact absurd he (Finset.not_mem_empty e)
    · intro e he
      exact absurd he (Finset.not_mem_empty e)
    · dsimp only
      rw [hDS0, Finset.card_singleton, Finset.card_empty]

theorem dijkLoop_no_overwrite (side : ℕ) (bs : BorderState)
    (hforest : isForest side bs) :
    ∀ (fuel : ℕ) (s : DijkState), DijkInv side bs s →
      (dijkLoop side bs fuel s).overwrote = false ∧
      ∀ w ∈ (dijkLoop side bs fuel s).writes, w.2.1 = w.2.2 + 1 := by
  intro fuel
  induction fuel with
  | zero =>
    intro s hinv
    exact ⟨hinv.ovf, hinv.wOK⟩
  | succ n ih =>
    intro s hinv
    rcases dijkStep_inv side bs hforest s hinv with
      ⟨s1, hstep, ho, hw⟩ | ⟨s1, hstep, hinv1⟩
    · unfold dijkLoop
      rw [hstep]
      dsimp only
      constructor
      · rw [ho]
        exact hinv.ovf
      · rw [hw]
        exact hinv.wOK
    · unfold dijkLoop
      rw [hstep]
      dsimp only
      exact ih s1 hinv1

/-- C6: over a forest-shaped passage state (which every generator's
output is), the BFS layering phase never overwrites a recorded depth —
the instrumented `overwrote` flag stays `false`, so each cell's depth is
written at most once and first discovery wins — and every recorded write
stores exactly the discovering parent's depth plus one. -/
theorem dijkstras_depth_written_once (side : ℕ) (bs : BorderState)
    (hside : 1 ≤ side) (hforest : isForest side bs) :
    (DijkstrasPhase1 side bs).overwrote = false ∧
    ∀ w ∈ (DijkstrasPhase1 side bs).writes, w.2.1 = w.2.2 + 1 :=
  dijkLoop_no_overwrite side bs hforest (side * side + 1) (dijkInit side)
    (dijkInit_inv side bs hside)

/-- Witness for C6 at `side = 3` on the fully closed passage state
(no passage open), which is a forest. -/
theorem dijkstras_depth_written_once_witness :
    (DijkstrasPhase1 3 []).overwrote = false ∧
    ∀ w ∈ (DijkstrasPhase1 3 []).writes, w.2.1 = w.2.2 + 1 :=
  dijkstras_depth_written_once 3 [] (by omega) (by
    intro S hS
    rw [openEdges_nil]
    have h1 : (∅ : Finset (Cell × Cell)).filter (fun e => e.1 ∈ S ∧ e.2 ∈ S) = ∅ :=
      Finset.filter_empty _
    rw [h1, Finset.card_empty]
    have := Finset.card_pos.mpr hS
    omega)
